import Mathlib

/-!
# Verification of the ndnSIM consumer retransmission engine

Shallow embedding of `src/ndnSIM/apps/ndn-consumer.cpp` (class
`ns3::ndn::Consumer`): the request/retransmission state machine of a
named-data consumer.  Simulation times and 32-bit sequence numbers are
modelled as `Nat`; the sentinel `std::numeric_limits<uint32_t>::max()`
is the constant `UINT32_MAX` below.  External collaborators (the RTT
estimator, the tracing sinks, the transport, the event scheduler) are
modelled by an explicit list of emitted `Effect`s: each call the C++
code makes into a collaborator appears as one effect, in program order.

Container representations:
* `m_seqTimeouts`, `m_seqFullDelay`, `m_seqLastDelay` are boost
  multi-index containers with a unique ordered index on `seq` and an
  ordered non-unique index on `time`.  They are modelled as the list of
  entries in time-index order (`stInsert` places a new entry after all
  entries of smaller-or-equal time, and is a no-op when the unique seq
  key is already present, exactly as multi-index `insert`).
* `m_seqRetxCounts` is a `std::map<uint32_t,uint32_t>`, modelled as an
  association list in strictly increasing key order; `operator[]`
  (which default-inserts a zero entry) is `mapIndexGet` / `mapIncr`.
* `m_retxSeqs` is a `std::set<uint32_t>`, modelled as a strictly
  increasing list; `*begin()` is the head.
* `m_seq` (`NextSequenceCounter`) is modelled from the spec:
  the member declarations live in `ndn-consumer.hpp`, which is not part
  of this file set; spec §3 describes it as a "monotonically increasing
  32-bit counter", so it is a `Nat` counter with no wrap-around.
-/

namespace NdnConsumer

/-- The value `std::numeric_limits<uint32_t>::max()`, used by the C++ code both as
the "invalid sequence" sentinel in `SendPacket` and as the "no limit"
sentinel value of `m_seqMax`. -/
def UINT32_MAX : Nat := 4294967295

/-- One entry of a `SeqTimeoutsContainer`: a sequence number together
with a send time (`struct SeqTimeout` of ndnSIM). -/
structure SeqTimeout where
  seq : Nat
  time : Nat
deriving DecidableEq, Repr

/-- Key set (sequence numbers) of a `SeqTimeoutsContainer`. -/
def keysST (c : List SeqTimeout) : List Nat := c.map SeqTimeout.seq

/-- Does the container hold an entry for sequence `s`? (lookup on the
unique `i_seq` index). -/
def stContains (c : List SeqTimeout) (s : Nat) : Bool := c.any (fun e => e.seq == s)

/-- Model of `container.find(seq)` on the `i_seq` index. -/
def stFind (c : List SeqTimeout) (s : Nat) : Option SeqTimeout := c.find? (fun e => e.seq == s)

/-- Model of `container.erase(seq)`: drop the (unique) entry keyed `s`, a no-op
when absent. -/
def stErase (c : List SeqTimeout) (s : Nat) : List SeqTimeout := c.filter (fun e => e.seq ≠ s)

/-- Placement of a new entry in the time-ordered index: after every
entry of smaller-or-equal time (boost inserts an equivalent element
after the existing ones). -/
def stInsertByTime : List SeqTimeout → SeqTimeout → List SeqTimeout
  | [], e => [e]
  | x :: xs, e => if x.time ≤ e.time then x :: stInsertByTime xs e else e :: x :: xs

/-- Model of `container.insert(SeqTimeout(seq, time))`: the unique index on `seq`
makes the insert fail (container unchanged) when the key is present. -/
def stInsert (c : List SeqTimeout) (e : SeqTimeout) : List SeqTimeout :=
  if stContains c e.seq then c else stInsertByTime c e

/-- Key list of the `std::map` model. -/
def keysM (m : List (Nat × Nat)) : List Nat := m.map Prod.fst

/-- Model of `map.find(k)` returning the mapped value. -/
def mapFind (m : List (Nat × Nat)) (k : Nat) : Option Nat :=
  (m.find? (fun p => p.1 == k)).map Prod.snd

/-- Model of `std::map::operator[] (k)` used as an rvalue: returns the stored
value, default-inserting a `0` entry (in key order) when absent. -/
def mapIndexGet : List (Nat × Nat) → Nat → Nat × List (Nat × Nat)
  | [], k => (0, [(k, 0)])
  | (a, b) :: xs, k =>
    if a = k then (b, (a, b) :: xs)
    else if k < a then (0, (k, 0) :: (a, b) :: xs)
    else
      let r := mapIndexGet xs k
      (r.1, (a, b) :: r.2)

/-- Model of `map[k]++`: increment the entry, default-inserting (so an absent key
gets value `1`), keeping key order. -/
def mapIncr : List (Nat × Nat) → Nat → List (Nat × Nat)
  | [], k => [(k, 1)]
  | (a, b) :: xs, k =>
    if a = k then (a, b + 1) :: xs
    else if k < a then (k, 1) :: (a, b) :: xs
    else (a, b) :: mapIncr xs k

/-- Model of `map.erase(k)`, a no-op when absent. -/
def mapErase (m : List (Nat × Nat)) (k : Nat) : List (Nat × Nat) :=
  m.filter (fun p => p.1 ≠ k)

/-- Model of `std::set::insert`, keeping the strictly increasing order and
deduplicating. -/
def setInsert : List Nat → Nat → List Nat
  | [], k => [k]
  | a :: xs, k =>
    if a = k then a :: xs
    else if k < a then k :: a :: xs
    else a :: setInsert xs k

/-- Model of `std::set::erase(k)`, a no-op when absent. -/
def setErase (s : List Nat) (k : Nat) : List Nat := s.filter (fun a => a ≠ k)

/-- One call into an external collaborator, in program order:
RTT-estimator calls, the two delay trace sources, the transport emit,
and the two scheduler interactions. -/
inductive Effect where
  | rttIncreaseMultiplier
  | rttSentSeq (seq weight : Nat)
  | rttSetInterestInfo (seq weight : Nat)
  | rttAckSeq (seq : Nat)
  | rttDiscardInterestBySeq (seq : Nat)
  | traceLastDelay (seq delay hopCount : Nat)
  | traceFirstDelay (seq delay retxCount hopCount : Nat)
  | sendInterest (seq : Nat)
  | scheduleNext
  | scheduleRetxCheck (interval : Nat)
deriving DecidableEq, Repr

/-- The consumer protocol state: the members of `ns3::ndn::Consumer`
that the reliability core reads or writes. -/
structure ConsumerState where
  m_active : Bool
  m_seq : Nat
  m_seqMax : Nat
  m_retxNum : Nat
  m_retxTimer : Nat
  m_seqTimeouts : List SeqTimeout
  m_seqFullDelay : List SeqTimeout
  m_seqLastDelay : List SeqTimeout
  m_seqRetxCounts : List (Nat × Nat)
  m_retxSeqs : List Nat
deriving DecidableEq, Repr

/-- A consumer state whose ledgers are empty: the state right after
`Consumer::Consumer` plus attribute configuration (`StartSeq`,
`MaxSeq`, retry budget, `RetxTimer`, and the app-activity flag). -/
def initState (startSeq seqMax retxNum retxTimer : Nat) (active : Bool) : ConsumerState :=
  { m_active := active
    m_seq := startSeq
    m_seqMax := seqMax
    m_retxNum := retxNum
    m_retxTimer := retxTimer
    m_seqTimeouts := []
    m_seqFullDelay := []
    m_seqLastDelay := []
    m_seqRetxCounts := []
    m_retxSeqs := [] }

/-- Model of `Consumer::WaitBeforeSendOutInterest` (ndn-consumer.cpp:360-377):
per-send bookkeeping.  Inserts the send time into `m_seqTimeouts` and
`m_seqFullDelay` (both no-ops if the key is present, so the full-delay
time survives retransmissions), refreshes `m_seqLastDelay`
(erase-then-insert), increments `m_seqRetxCounts[seq]`, and registers
the send with the estimator (`SetInterestInfo`). -/
def WaitBeforeSendOutInterest (sequenceNumber now : Nat) (st : ConsumerState) :
    ConsumerState × List Effect :=
  ({ st with
      m_seqTimeouts := stInsert st.m_seqTimeouts ⟨sequenceNumber, now⟩
      m_seqFullDelay := stInsert st.m_seqFullDelay ⟨sequenceNumber, now⟩
      m_seqLastDelay := stInsert (stErase st.m_seqLastDelay sequenceNumber) ⟨sequenceNumber, now⟩
      m_seqRetxCounts := mapIncr st.m_seqRetxCounts sequenceNumber },
   [Effect.rttSetInterestInfo sequenceNumber 1])

/-- Model of `Consumer::OnTimeout` (ndn-consumer.cpp:309-338).  First
`m_rtt->IncreaseMultiplier()`; then, reading
`m_seqRetxCounts[sequenceNumber]` via `operator[]` (default-inserting),
either the retry branch (`SentSeq` with weight 1, insert into
`m_retxSeqs`, `ScheduleNextPacket`) or the discard branch (erase the
sequence from the four ledgers and `DiscardInterestBySeq`). -/
def OnTimeout (sequenceNumber : Nat) (st : ConsumerState) : ConsumerState × List Effect :=
  let r := mapIndexGet st.m_seqRetxCounts sequenceNumber
  let st1 := { st with m_seqRetxCounts := r.2 }
  if r.1 < st.m_retxNum then
    ({ st1 with m_retxSeqs := setInsert st1.m_retxSeqs sequenceNumber },
     [Effect.rttIncreaseMultiplier, Effect.rttSentSeq sequenceNumber 1, Effect.scheduleNext])
  else
    ({ st1 with
        m_seqRetxCounts := mapErase st1.m_seqRetxCounts sequenceNumber
        m_seqFullDelay := stErase st1.m_seqFullDelay sequenceNumber
        m_seqLastDelay := stErase st1.m_seqLastDelay sequenceNumber
        m_seqTimeouts := stErase st1.m_seqTimeouts sequenceNumber },
     [Effect.rttIncreaseMultiplier, Effect.rttDiscardInterestBySeq sequenceNumber])

/-- The `while` loop of `Consumer::CheckRetxTimeout`
(ndn-consumer.cpp:122-135): repeatedly take the earliest entry of the
time-ordered index; if `entry.time + rto ≤ now`, erase it and hand its
sequence to `OnTimeout`, otherwise stop.  The `fuel` parameter is a
structural loop variant: every iteration removes the head entry and
`OnTimeout` never lengthens `m_seqTimeouts`, so
`st.m_seqTimeouts.length` fuel always suffices
(`checkLoop_fuel_sufficient` below). -/
def checkLoop : Nat → Nat → Nat → ConsumerState → ConsumerState × List Effect
  | 0, _, _, st => (st, [])
  | fuel + 1, now, rto, st =>
    match st.m_seqTimeouts with
    | [] => (st, [])
    | entry :: rest =>
      if entry.time + rto ≤ now then
        let r1 := OnTimeout entry.seq { st with m_seqTimeouts := rest }
        let r2 := checkLoop fuel now rto r1.1
        (r2.1, r1.2 ++ r2.2)
      else (st, [])

/-- Model of `Consumer::CheckRetxTimeout` (ndn-consumer.cpp:113-138): run the
timeout scan with the estimator's current RTO (`rto`, the value of
`m_rtt->RetransmitTimeout()`), then unconditionally reschedule the next
periodic check after `m_retxTimer`. -/
def CheckRetxTimeout (now rto : Nat) (st : ConsumerState) : ConsumerState × List Effect :=
  let r := checkLoop st.m_seqTimeouts.length now rto st
  (r.1, r.2 ++ [Effect.scheduleRetxCheck r.1.m_retxTimer])

/-- Model of `Consumer::SendPacket` (ndn-consumer.cpp:164-242).  Returns early
when inactive; pops the first pending retransmission if any (the loop
at lines 177-182 runs its body at most once because of the `break`);
a popped value equal to the `UINT32_MAX` sentinel—or an empty set—falls
through to fresh minting, which is suppressed when `m_seqMax` is
configured (not the no-limit sentinel) and `m_seq ≥ m_seqMax`.
The send itself does the `WaitBeforeSendOutInterest` bookkeeping, emits
the Interest, and calls `ScheduleNextPacket`. -/
def SendPacket (now : Nat) (st : ConsumerState) : ConsumerState × List Effect :=
  if st.m_active = false then (st, [])
  else
    let pop : Nat × List Nat :=
      match st.m_retxSeqs with
      | [] => (UINT32_MAX, [])
      | s :: rest => (s, rest)
    let st1 := { st with m_retxSeqs := pop.2 }
    if pop.1 = UINT32_MAX then
      if st1.m_seqMax ≠ UINT32_MAX ∧ st1.m_seq ≥ st1.m_seqMax then
        (st1, [])
      else
        let seq := st1.m_seq
        let st2 := { st1 with m_seq := st1.m_seq + 1 }
        let r := WaitBeforeSendOutInterest seq now st2
        (r.1, r.2 ++ [Effect.sendInterest seq, Effect.scheduleNext])
    else
      let r := WaitBeforeSendOutInterest pop.1 now st1
      (r.1, r.2 ++ [Effect.sendInterest pop.1, Effect.scheduleNext])

/-- The unconditional erase block of `Consumer::OnData`
(ndn-consumer.cpp:289-294): remove the resolved sequence from
`m_seqRetxCounts`, `m_seqTimeouts`, `m_retxSeqs`, `m_seqFullDelay` and
`m_seqLastDelay` (each erase a no-op on an absent key). -/
def resolutionErase (seq : Nat) (st : ConsumerState) : ConsumerState :=
  { st with
      m_seqRetxCounts := mapErase st.m_seqRetxCounts seq
      m_seqTimeouts := stErase st.m_seqTimeouts seq
      m_retxSeqs := setErase st.m_retxSeqs seq
      m_seqFullDelay := stErase st.m_seqFullDelay seq
      m_seqLastDelay := stErase st.m_seqLastDelay seq }

/-- Model of `Consumer::OnData` (ndn-consumer.cpp:249-307).  Ignored when
inactive.  Emits the "last retransmitted Interest" delay observation if
the sequence is in `m_seqLastDelay`, and the "first Interest" delay
observation — whose retx-count field is `m_seqRetxCounts[seq]`, an
`operator[]` read that default-inserts — if it is in `m_seqFullDelay`;
then unconditionally erases the sequence from all five ledgers and
acknowledges it to the estimator (`AckSeq`). -/
def OnData (seq now hopCount : Nat) (st : ConsumerState) : ConsumerState × List Effect :=
  if st.m_active = false then (st, [])
  else
    let lastEffs : List Effect :=
      match stFind st.m_seqLastDelay seq with
      | some entry => [Effect.traceLastDelay seq (now - entry.time) hopCount]
      | none => []
    let fullStep : List Effect × List (Nat × Nat) :=
      match stFind st.m_seqFullDelay seq with
      | some entry =>
        let r := mapIndexGet st.m_seqRetxCounts seq
        ([Effect.traceFirstDelay seq (now - entry.time) r.1 hopCount], r.2)
      | none => ([], st.m_seqRetxCounts)
    let st1 := resolutionErase seq { st with m_seqRetxCounts := fullStep.2 }
    (st1, lastEffs ++ fullStep.1 ++ [Effect.rttAckSeq seq])

/-- Protocol events dispatched by the discrete-event scheduler: a
scheduled send firing (`SendPacket`), a periodic retransmission check
firing (`CheckRetxTimeout`, with the RTO the estimator returns at that
moment), and a Data arrival (`OnData`). -/
inductive Event where
  | send (now : Nat)
  | check (now rto : Nat)
  | data (seq now hopCount : Nat)
deriving DecidableEq, Repr

/-- Dispatch one event to its handler. -/
def stepEvent : Event → ConsumerState → ConsumerState × List Effect
  | .send now, st => SendPacket now st
  | .check now rto, st => CheckRetxTimeout now rto st
  | .data seq now hop, st => OnData seq now hop st

/-- Run a list of events, concatenating the emitted effects. -/
def runEvents : List Event → ConsumerState → ConsumerState × List Effect
  | [], st => (st, [])
  | e :: es, st =>
    let r1 := stepEvent e st
    let r2 := runEvents es r1.1
    (r2.1, r1.2 ++ r2.2)

/-! ## Lemmas about the container operations -/

theorem stContains_iff {c : List SeqTimeout} {s : Nat} :
    stContains c s = true ↔ s ∈ keysST c := by
  simp only [stContains, keysST, List.any_eq_true, List.mem_map, beq_iff_eq]

theorem mem_keysST_stErase {c : List SeqTimeout} {s k : Nat} :
    k ∈ keysST (stErase c s) ↔ k ∈ keysST c ∧ k ≠ s := by
  simp only [stErase, keysST, List.mem_map, List.mem_filter, decide_eq_true_eq]
  constructor
  · rintro ⟨e, ⟨he, hne⟩, rfl⟩; exact ⟨⟨e, he, rfl⟩, hne⟩
  · rintro ⟨⟨e, he, rfl⟩, hne⟩; exact ⟨e, ⟨he, hne⟩, rfl⟩

theorem stErase_of_not_mem {c : List SeqTimeout} {s : Nat} (h : s ∉ keysST c) :
    stErase c s = c := by
  apply List.filter_eq_self.mpr
  intro e he
  simp only [decide_eq_true_eq]
  intro hseq
  exact h (hseq ▸ List.mem_map_of_mem SeqTimeout.seq he)

theorem stInsertByTime_perm (c : List SeqTimeout) (e : SeqTimeout) :
    List.Perm (stInsertByTime c e) (e :: c) := by
  induction c with
  | nil => simp [stInsertByTime]
  | cons x xs ih =>
    simp only [stInsertByTime]
    split
    · exact (ih.cons x).trans (List.Perm.swap e x xs)
    · exact List.Perm.refl _

theorem keysST_stInsertByTime_perm (c : List SeqTimeout) (e : SeqTimeout) :
    List.Perm (keysST (stInsertByTime c e)) (e.seq :: keysST c) :=
  (stInsertByTime_perm c e).map SeqTimeout.seq

theorem mem_keysST_stInsert {c : List SeqTimeout} {e : SeqTimeout} {k : Nat} :
    k ∈ keysST (stInsert c e) ↔ k ∈ keysST c ∨ k = e.seq := by
  unfold stInsert
  split
  · rename_i h
    have hs : e.seq ∈ keysST c := stContains_iff.mp h
    constructor
    · exact fun hk => Or.inl hk
    · rintro (hk | rfl)
      · exact hk
      · exact hs
  · rw [(keysST_stInsertByTime_perm c e).mem_iff]
    simp only [List.mem_cons]
    tauto

theorem nodup_keysST_stInsert {c : List SeqTimeout} {e : SeqTimeout}
    (h : (keysST c).Nodup) : (keysST (stInsert c e)).Nodup := by
  unfold stInsert
  split
  · exact h
  · rename_i hc
    have hs : e.seq ∉ keysST c := fun hm => hc (stContains_iff.mpr hm)
    exact ((keysST_stInsertByTime_perm c e).nodup_iff).mpr (List.Nodup.cons hs h)

theorem nodup_keysST_stErase {c : List SeqTimeout} {s : Nat}
    (h : (keysST c).Nodup) : (keysST (stErase c s)).Nodup := by
  have hsub : List.Sublist (stErase c s) c := List.filter_sublist c
  exact (hsub.map SeqTimeout.seq).nodup h

theorem stFind_eq_none {c : List SeqTimeout} {s : Nat} (h : s ∉ keysST c) :
    stFind c s = none := by
  apply List.find?_eq_none.mpr
  intro e he
  simp only [beq_iff_eq]
  intro hseq
  exact h (hseq ▸ List.mem_map_of_mem SeqTimeout.seq he)

theorem stFind_isSome {c : List SeqTimeout} {s : Nat} (h : s ∈ keysST c) :
    ∃ e, stFind c s = some e ∧ e ∈ c ∧ e.seq = s := by
  obtain ⟨e, he, rfl⟩ := List.mem_map.mp h
  have hsome : (stFind c e.seq).isSome := by
    apply List.find?_isSome.mpr
    exact ⟨e, he, by simp⟩
  obtain ⟨f, hf⟩ := Option.isSome_iff_exists.mp hsome
  refine ⟨f, hf, List.mem_of_find?_eq_some hf, ?_⟩
  have hp := List.find?_some hf
  simpa using hp

theorem mem_keysM_mapErase {m : List (Nat × Nat)} {k j : Nat} :
    j ∈ keysM (mapErase m k) ↔ j ∈ keysM m ∧ j ≠ k := by
  simp only [mapErase, keysM, List.mem_map, List.mem_filter, decide_eq_true_eq]
  constructor
  · rintro ⟨p, ⟨hp, hne⟩, rfl⟩; exact ⟨⟨p, hp, rfl⟩, hne⟩
  · rintro ⟨⟨p, hp, rfl⟩, hne⟩; exact ⟨p, ⟨hp, hne⟩, rfl⟩

theorem mapErase_of_not_mem {m : List (Nat × Nat)} {k : Nat} (h : k ∉ keysM m) :
    mapErase m k = m := by
  apply List.filter_eq_self.mpr
  intro p hp
  simp only [decide_eq_true_eq]
  intro hk
  exact h (hk ▸ List.mem_map_of_mem Prod.fst hp)

theorem mem_mapIncr_fst {m : List (Nat × Nat)} {k : Nat} {p : Nat × Nat}
    (h : p ∈ mapIncr m k) : p.1 ∈ keysM m ∨ p.1 = k := by
  induction m with
  | nil =>
    simp only [mapIncr, List.mem_singleton] at h
    subst h; right; rfl
  | cons q xs ih =>
    obtain ⟨a, b⟩ := q
    simp only [mapIncr] at h
    split at h
    · rcases List.mem_cons.mp h with h1 | h1
      · subst h1; left; simp [keysM]
      · left
        exact List.mem_cons_of_mem a (List.mem_map_of_mem Prod.fst h1)
    · split at h
      · rcases List.mem_cons.mp h with h1 | h1
        · subst h1; right; rfl
        · left; exact List.mem_map_of_mem Prod.fst h1
      · rcases List.mem_cons.mp h with h1 | h1
        · subst h1; left; simp [keysM]
        · rcases ih h1 with h2 | h2
          · left
            exact List.mem_cons_of_mem a h2
          · right; exact h2

theorem mem_keysM_mapIncr {m : List (Nat × Nat)} {k j : Nat} :
    j ∈ keysM (mapIncr m k) ↔ j ∈ keysM m ∨ j = k := by
  induction m with
  | nil => simp [mapIncr, keysM]
  | cons q xs ih =>
    obtain ⟨a, b⟩ := q
    simp only [mapIncr]
    split
    · rename_i hak
      subst hak
      simp only [keysM, List.map_cons, List.mem_cons]
      tauto
    · split
      · simp only [keysM, List.map_cons, List.mem_cons]
        tauto
      · simp only [keysM, List.map_cons, List.mem_cons]
        have ih' := ih
        simp only [keysM] at ih'
        rw [ih']
        tauto

theorem pairwise_mapIncr {m : List (Nat × Nat)} {k : Nat}
    (h : m.Pairwise (fun p q => p.1 < q.1)) :
    (mapIncr m k).Pairwise (fun p q => p.1 < q.1) := by
  induction m with
  | nil => simp [mapIncr]
  | cons q xs ih =>
    obtain ⟨a, b⟩ := q
    rw [List.pairwise_cons] at h
    obtain ⟨ha, hxs⟩ := h
    simp only [mapIncr]
    split
    · exact List.pairwise_cons.mpr ⟨fun p hp => ha p hp, hxs⟩
    · split
      · rename_i hak hka
        refine List.pairwise_cons.mpr ⟨?_, List.pairwise_cons.mpr ⟨ha, hxs⟩⟩
        intro p hp
        rcases List.mem_cons.mp hp with h1 | h1
        · subst h1; exact hka
        · exact lt_trans hka (ha p h1)
      · rename_i hak hka
        refine List.pairwise_cons.mpr ⟨?_, ih hxs⟩
        intro p hp
        rcases mem_mapIncr_fst hp with h1 | h1
        · obtain ⟨p', hp', he⟩ := List.mem_map.mp h1
          have := ha p' hp'
          omega
        · omega

theorem mem_mapIndexGet_fst {m : List (Nat × Nat)} {k : Nat} {p : Nat × Nat}
    (h : p ∈ (mapIndexGet m k).2) : p.1 ∈ keysM m ∨ p.1 = k := by
  induction m with
  | nil =>
    simp only [mapIndexGet, List.mem_singleton] at h
    subst h; right; rfl
  | cons q xs ih =>
    obtain ⟨a, b⟩ := q
    simp only [mapIndexGet] at h
    split at h
    · rcases List.mem_cons.mp h with h1 | h1
      · subst h1; left; simp [keysM]
      · left; exact List.mem_cons_of_mem a (List.mem_map_of_mem Prod.fst h1)
    · split at h
      · rcases List.mem_cons.mp h with h1 | h1
        · subst h1; right; rfl
        · left; exact List.mem_map_of_mem Prod.fst h1
      · rcases List.mem_cons.mp h with h1 | h1
        · subst h1; left; simp [keysM]
        · rcases ih h1 with h2 | h2
          · left; exact List.mem_cons_of_mem a h2
          · right; exact h2

theorem mem_keysM_mapIndexGet {m : List (Nat × Nat)} {k j : Nat} :
    j ∈ keysM (mapIndexGet m k).2 ↔ j ∈ keysM m ∨ j = k := by
  induction m with
  | nil => simp [mapIndexGet, keysM]
  | cons q xs ih =>
    obtain ⟨a, b⟩ := q
    simp only [mapIndexGet]
    split
    · rename_i hak
      subst hak
      simp only [keysM, List.map_cons, List.mem_cons]
      tauto
    · split
      · simp only [keysM, List.map_cons, List.mem_cons]
        tauto
      · simp only [keysM, List.map_cons, List.mem_cons]
        have ih' := ih
        simp only [keysM] at ih'
        rw [ih']
        tauto

theorem pairwise_mapIndexGet {m : List (Nat × Nat)} {k : Nat}
    (h : m.Pairwise (fun p q => p.1 < q.1)) :
    ((mapIndexGet m k).2).Pairwise (fun p q => p.1 < q.1) := by
  induction m with
  | nil => simp [mapIndexGet]
  | cons q xs ih =>
    obtain ⟨a, b⟩ := q
    rw [List.pairwise_cons] at h
    obtain ⟨ha, hxs⟩ := h
    simp only [mapIndexGet]
    split
    · exact List.pairwise_cons.mpr ⟨ha, hxs⟩
    · split
      · rename_i hak hka
        refine List.pairwise_cons.mpr ⟨?_, List.pairwise_cons.mpr ⟨ha, hxs⟩⟩
        intro p hp
        rcases List.mem_cons.mp hp with h1 | h1
        · subst h1; exact hka
        · exact lt_trans hka (ha p h1)
      · rename_i hak hka
        refine List.pairwise_cons.mpr ⟨?_, ih hxs⟩
        intro p hp
        rcases mem_mapIndexGet_fst hp with h1 | h1
        · obtain ⟨p', hp', he⟩ := List.mem_map.mp h1
          have := ha p' hp'
          omega
        · omega

theorem mapIndexGet_of_mem {m : List (Nat × Nat)} {k : Nat}
    (hs : m.Pairwise (fun p q => p.1 < q.1)) (h : k ∈ keysM m) :
    (mapIndexGet m k).2 = m := by
  induction m with
  | nil => simp [keysM] at h
  | cons q xs ih =>
    obtain ⟨a, b⟩ := q
    rw [List.pairwise_cons] at hs
    obtain ⟨ha, hxs⟩ := hs
    simp only [keysM, List.map_cons, List.mem_cons] at h
    simp only [mapIndexGet]
    split
    · rfl
    · split
      · rename_i hak hka
        exfalso
        rcases h with h1 | h1
        · exact hak h1.symm
        · obtain ⟨p', hp', he⟩ := List.mem_map.mp h1
          have := ha p' hp'
          omega
      · rename_i hak hka
        have hmem : k ∈ keysM xs := by
          rcases h with h1 | h1
          · exact absurd h1.symm hak
          · exact h1
        simp [ih hxs hmem]

theorem mem_setInsert {s : List Nat} {k j : Nat} :
    j ∈ setInsert s k ↔ j ∈ s ∨ j = k := by
  induction s with
  | nil => simp [setInsert]
  | cons a xs ih =>
    simp only [setInsert]
    split
    · rename_i hak
      subst hak
      simp only [List.mem_cons]
      tauto
    · split
      · simp only [List.mem_cons]
        tauto
      · simp only [List.mem_cons]
        rw [ih]
        tauto

theorem pairwise_setInsert {s : List Nat} {k : Nat}
    (h : s.Pairwise (· < ·)) : (setInsert s k).Pairwise (· < ·) := by
  induction s with
  | nil => simp [setInsert]
  | cons a xs ih =>
    rw [List.pairwise_cons] at h
    obtain ⟨ha, hxs⟩ := h
    simp only [setInsert]
    split
    · exact List.pairwise_cons.mpr ⟨ha, hxs⟩
    · split
      · rename_i hak hka
        refine List.pairwise_cons.mpr ⟨?_, List.pairwise_cons.mpr ⟨ha, hxs⟩⟩
        intro x hx
        rcases List.mem_cons.mp hx with h1 | h1
        · subst h1; exact hka
        · exact lt_trans hka (ha x h1)
      · rename_i hak hka
        refine List.pairwise_cons.mpr ⟨?_, ih hxs⟩
        intro x hx
        rcases mem_setInsert.mp hx with h1 | h1
        · exact ha x h1
        · omega

theorem mem_setErase {s : List Nat} {k j : Nat} :
    j ∈ setErase s k ↔ j ∈ s ∧ j ≠ k := by
  simp [setErase, List.mem_filter]

theorem setErase_of_not_mem {s : List Nat} {k : Nat} (h : k ∉ s) :
    setErase s k = s := by
  apply List.filter_eq_self.mpr
  intro a ha
  simp only [decide_eq_true_eq]
  intro hk
  exact h (hk ▸ ha)

theorem pairwise_setErase {s : List Nat} {k : Nat}
    (h : s.Pairwise (· < ·)) : (setErase s k).Pairwise (· < ·) :=
  h.sublist (List.filter_sublist s)

theorem pairwise_mapErase {m : List (Nat × Nat)} {k : Nat}
    (h : m.Pairwise (fun p q => p.1 < q.1)) :
    (mapErase m k).Pairwise (fun p q => p.1 < q.1) :=
  h.sublist (List.filter_sublist m)

/-! ## The cross-ledger well-formedness invariant

`Wf` packages the representation invariants the C++ containers enforce
by construction (unique ordered keys) together with the cross-ledger
relations of spec §3: the key sets of `m_seqRetxCounts`,
`m_seqFullDelay` and `m_seqLastDelay` coincide, `m_seqTimeouts` tracks
a subset of them, a sequence pending retransmission has no timeout
entry, and every tracked sequence has already been minted
(spec §3: an entry exists only for a sequence that was sent). -/

/-- Sequence `k` occurs in at least one of the five ledgers. -/
def seqPresent (k : Nat) (st : ConsumerState) : Prop :=
  k ∈ keysM st.m_seqRetxCounts ∨ k ∈ keysST st.m_seqFullDelay ∨
  k ∈ keysST st.m_seqLastDelay ∨ k ∈ keysST st.m_seqTimeouts ∨ k ∈ st.m_retxSeqs

/-- Well-formedness of a consumer state. -/
structure Wf (st : ConsumerState) : Prop where
  sortedCounts : st.m_seqRetxCounts.Pairwise (fun p q => p.1 < q.1)
  nodupFull : (keysST st.m_seqFullDelay).Nodup
  nodupLast : (keysST st.m_seqLastDelay).Nodup
  nodupTimeouts : (keysST st.m_seqTimeouts).Nodup
  sortedRetx : st.m_retxSeqs.Pairwise (· < ·)
  countsFull : ∀ k, k ∈ keysM st.m_seqRetxCounts ↔ k ∈ keysST st.m_seqFullDelay
  countsLast : ∀ k, k ∈ keysM st.m_seqRetxCounts ↔ k ∈ keysST st.m_seqLastDelay
  timeoutsSub : ∀ k, k ∈ keysST st.m_seqTimeouts → k ∈ keysM st.m_seqRetxCounts
  retxSub : ∀ k, k ∈ st.m_retxSeqs → k ∈ keysM st.m_seqRetxCounts
  retxTimeoutsDisj : ∀ k, k ∈ st.m_retxSeqs → k ∉ keysST st.m_seqTimeouts
  presentLtSeq : ∀ k, seqPresent k st → k < st.m_seq

theorem wf_initState (startSeq seqMax retxNum retxTimer : Nat) (active : Bool) :
    Wf (initState startSeq seqMax retxNum retxTimer active) := by
  constructor <;> simp [initState, seqPresent, keysM, keysST]

theorem wf_WaitBeforeSendOutInterest {st : ConsumerState} {seq now : Nat} (h : Wf st)
    (hr : seq ∉ st.m_retxSeqs) (hlt : seq < st.m_seq) :
    Wf (WaitBeforeSendOutInterest seq now st).1 := by
  obtain ⟨hsc, hnf, hnl, hnt, hsr, hcf, hcl, hts, hrs, hdis, hpl⟩ := h
  simp only [WaitBeforeSendOutInterest]
  refine ⟨?_, ?_, ?_, ?_, ?_, ?_, ?_, ?_, ?_, ?_, ?_⟩
  · exact pairwise_mapIncr hsc
  · exact nodup_keysST_stInsert hnf
  · exact nodup_keysST_stInsert (nodup_keysST_stErase hnl)
  · exact nodup_keysST_stInsert hnt
  · exact hsr
  · intro k
    rw [mem_keysM_mapIncr, mem_keysST_stInsert]
    have := hcf k
    tauto
  · intro k
    rw [mem_keysM_mapIncr, mem_keysST_stInsert, mem_keysST_stErase]
    have := hcl k
    by_cases hk : k = seq <;> tauto
  · intro k hk
    rw [mem_keysST_stInsert] at hk
    rw [mem_keysM_mapIncr]
    rcases hk with hk | hk
    · exact Or.inl (hts k hk)
    · exact Or.inr hk
  · intro k hk
    rw [mem_keysM_mapIncr]
    exact Or.inl (hrs k hk)
  · intro k hk
    rw [mem_keysST_stInsert]
    rintro (hmem | rfl)
    · exact hdis k hk hmem
    · exact hr hk
  · intro k hk
    rcases hk with hk | hk | hk | hk | hk
    · rw [mem_keysM_mapIncr] at hk
      rcases hk with hk | rfl
      · exact hpl k (Or.inl hk)
      · exact hlt
    · rw [mem_keysST_stInsert] at hk
      rcases hk with hk | rfl
      · exact hpl k (Or.inr (Or.inl hk))
      · exact hlt
    · rw [mem_keysST_stInsert, mem_keysST_stErase] at hk
      rcases hk with ⟨hk, _⟩ | rfl
      · exact hpl k (Or.inr (Or.inr (Or.inl hk)))
      · exact hlt
    · rw [mem_keysST_stInsert] at hk
      rcases hk with hk | rfl
      · exact hpl k (Or.inr (Or.inr (Or.inr (Or.inl hk))))
      · exact hlt
    · exact hpl k (Or.inr (Or.inr (Or.inr (Or.inr hk))))

theorem wf_OnTimeout {st : ConsumerState} {seq : Nat} (h : Wf st)
    (hmem : seq ∈ keysM st.m_seqRetxCounts)
    (hnt : seq ∉ keysST st.m_seqTimeouts)
    (hnr : seq ∉ st.m_retxSeqs) :
    Wf (OnTimeout seq st).1 := by
  have hkeep : (mapIndexGet st.m_seqRetxCounts seq).2 = st.m_seqRetxCounts :=
    mapIndexGet_of_mem h.sortedCounts hmem
  obtain ⟨hsc, hnf, hnl, hnt2, hsr, hcf, hcl, hts, hrs, hdis, hpl⟩ := h
  simp only [OnTimeout, hkeep]
  split
  · refine ⟨hsc, hnf, hnl, hnt2, pairwise_setInsert hsr, hcf, hcl, hts, ?_, ?_, ?_⟩
    · intro k hk
      rcases mem_setInsert.mp hk with hk | rfl
      · exact hrs k hk
      · exact hmem
    · intro k hk
      rcases mem_setInsert.mp hk with hk | rfl
      · exact hdis k hk
      · exact hnt
    · intro k hk
      rcases hk with hk | hk | hk | hk | hk
      · exact hpl k (Or.inl hk)
      · exact hpl k (Or.inr (Or.inl hk))
      · exact hpl k (Or.inr (Or.inr (Or.inl hk)))
      · exact hpl k (Or.inr (Or.inr (Or.inr (Or.inl hk))))
      · rcases mem_setInsert.mp hk with hk | rfl
        · exact hpl k (Or.inr (Or.inr (Or.inr (Or.inr hk))))
        · exact hpl k (Or.inl hmem)
  · refine ⟨pairwise_mapErase hsc, nodup_keysST_stErase hnf, nodup_keysST_stErase hnl,
      nodup_keysST_stErase hnt2, hsr, ?_, ?_, ?_, ?_, ?_, ?_⟩
    · intro k
      rw [mem_keysM_mapErase, mem_keysST_stErase]
      have := hcf k
      tauto
    · intro k
      rw [mem_keysM_mapErase, mem_keysST_stErase]
      have := hcl k
      tauto
    · intro k hk
      rw [mem_keysST_stErase] at hk
      rw [mem_keysM_mapErase]
      exact ⟨hts k hk.1, hk.2⟩
    · intro k hk
      rw [mem_keysM_mapErase]
      refine ⟨hrs k hk, ?_⟩
      rintro rfl
      exact hnr hk
    · intro k hk
      rw [mem_keysST_stErase]
      rintro ⟨hmem2, _⟩
      exact hdis k hk hmem2
    · intro k hk
      rcases hk with hk | hk | hk | hk | hk
      · exact hpl k (Or.inl (mem_keysM_mapErase.mp hk).1)
      · exact hpl k (Or.inr (Or.inl (mem_keysST_stErase.mp hk).1))
      · exact hpl k (Or.inr (Or.inr (Or.inl (mem_keysST_stErase.mp hk).1)))
      · exact hpl k (Or.inr (Or.inr (Or.inr (Or.inl (mem_keysST_stErase.mp hk).1))))
      · exact hpl k (Or.inr (Or.inr (Or.inr (Or.inr hk))))

theorem wf_popTimeout {st : ConsumerState} {entry : SeqTimeout} {rest : List SeqTimeout}
    (h : Wf st) (he : st.m_seqTimeouts = entry :: rest) :
    Wf { st with m_seqTimeouts := rest } := by
  obtain ⟨hsc, hnf, hnl, hnt, hsr, hcf, hcl, hts, hrs, hdis, hpl⟩ := h
  rw [he] at hnt hts hdis
  refine ⟨hsc, hnf, hnl, (List.nodup_cons.mp hnt).2, hsr, hcf, hcl, ?_, hrs, ?_, ?_⟩
  · intro k hk
    exact hts k (List.mem_cons_of_mem _ hk)
  · intro k hk hk2
    exact hdis k hk (List.mem_cons_of_mem _ hk2)
  · intro k hk
    apply hpl k
    rcases hk with hk | hk | hk | hk | hk
    · exact Or.inl hk
    · exact Or.inr (Or.inl hk)
    · exact Or.inr (Or.inr (Or.inl hk))
    · refine Or.inr (Or.inr (Or.inr (Or.inl ?_)))
      rw [he]
      exact List.mem_cons_of_mem _ hk
    · exact Or.inr (Or.inr (Or.inr (Or.inr hk)))

theorem wf_checkLoop {fuel now rto : Nat} {st : ConsumerState} (h : Wf st) :
    Wf (checkLoop fuel now rto st).1 := by
  induction fuel generalizing st with
  | zero => exact h
  | succ fuel ih =>
    cases he : st.m_seqTimeouts with
    | nil =>
      simp only [checkLoop, he]
      exact h
    | cons entry rest =>
      simp only [checkLoop, he]
      split
      · apply ih
        apply wf_OnTimeout (wf_popTimeout h he)
        · apply h.timeoutsSub
          rw [he]
          exact List.mem_cons_self _ _
        · have hnd := h.nodupTimeouts
          rw [he] at hnd
          exact (List.nodup_cons.mp hnd).1
        · intro hk
          apply h.retxTimeoutsDisj entry.seq hk
          rw [he]
          exact List.mem_cons_self _ _
      · exact h

theorem wf_CheckRetxTimeout {now rto : Nat} {st : ConsumerState} (h : Wf st) :
    Wf (CheckRetxTimeout now rto st).1 := by
  simp only [CheckRetxTimeout]
  exact wf_checkLoop h

theorem wf_resolutionErase {st : ConsumerState} {seq : Nat} (h : Wf st) :
    Wf (resolutionErase seq st) := by
  obtain ⟨hsc, hnf, hnl, hnt, hsr, hcf, hcl, hts, hrs, hdis, hpl⟩ := h
  simp only [resolutionErase]
  refine ⟨pairwise_mapErase hsc, nodup_keysST_stErase hnf, nodup_keysST_stErase hnl,
    nodup_keysST_stErase hnt, pairwise_setErase hsr, ?_, ?_, ?_, ?_, ?_, ?_⟩
  · intro k
    rw [mem_keysM_mapErase, mem_keysST_stErase]
    have := hcf k
    tauto
  · intro k
    rw [mem_keysM_mapErase, mem_keysST_stErase]
    have := hcl k
    tauto
  · intro k hk
    rw [mem_keysST_stErase] at hk
    rw [mem_keysM_mapErase]
    exact ⟨hts k hk.1, hk.2⟩
  · intro k hk
    rw [mem_setErase] at hk
    rw [mem_keysM_mapErase]
    exact ⟨hrs k hk.1, hk.2⟩
  · intro k hk
    rw [mem_setErase] at hk
    rw [mem_keysST_stErase]
    rintro ⟨hmem2, _⟩
    exact hdis k hk.1 hmem2
  · intro k hk
    rcases hk with hk | hk | hk | hk | hk
    · exact hpl k (Or.inl (mem_keysM_mapErase.mp hk).1)
    · exact hpl k (Or.inr (Or.inl (mem_keysST_stErase.mp hk).1))
    · exact hpl k (Or.inr (Or.inr (Or.inl (mem_keysST_stErase.mp hk).1)))
    · exact hpl k (Or.inr (Or.inr (Or.inr (Or.inl (mem_keysST_stErase.mp hk).1))))
    · exact hpl k (Or.inr (Or.inr (Or.inr (Or.inr (mem_setErase.mp hk).1))))

theorem wf_popRetx {st : ConsumerState} {s : Nat} {rest : List Nat}
    (h : Wf st) (he : st.m_retxSeqs = s :: rest) :
    Wf { st with m_retxSeqs := rest } := by
  obtain ⟨hsc, hnf, hnl, hnt, hsr, hcf, hcl, hts, hrs, hdis, hpl⟩ := h
  rw [he] at hsr hrs hdis
  refine ⟨hsc, hnf, hnl, hnt, (List.pairwise_cons.mp hsr).2, hcf, hcl, hts, ?_, ?_, ?_⟩
  · intro k hk
    exact hrs k (List.mem_cons_of_mem _ hk)
  · intro k hk
    exact hdis k (List.mem_cons_of_mem _ hk)
  · intro k hk
    apply hpl k
    rcases hk with hk | hk | hk | hk | hk
    · exact Or.inl hk
    · exact Or.inr (Or.inl hk)
    · exact Or.inr (Or.inr (Or.inl hk))
    · exact Or.inr (Or.inr (Or.inr (Or.inl hk)))
    · refine Or.inr (Or.inr (Or.inr (Or.inr ?_)))
      rw [he]
      exact List.mem_cons_of_mem _ hk

theorem wf_bumpSeq {st : ConsumerState} (h : Wf st) :
    Wf { st with m_seq := st.m_seq + 1 } := by
  obtain ⟨hsc, hnf, hnl, hnt, hsr, hcf, hcl, hts, hrs, hdis, hpl⟩ := h
  exact ⟨hsc, hnf, hnl, hnt, hsr, hcf, hcl, hts, hrs, hdis,
    fun k hk => Nat.lt_succ_of_lt (hpl k hk)⟩

theorem wf_SendPacket {now : Nat} {st : ConsumerState} (h : Wf st) :
    Wf (SendPacket now st).1 := by
  by_cases ha : st.m_active = false
  · simp only [SendPacket, if_pos ha]
    exact h
  · rcases hrs : st.m_retxSeqs with _ | ⟨s, rest⟩
    · simp [SendPacket, if_neg ha, hrs]
      split
      · rw [← hrs]
        exact h
      · apply wf_WaitBeforeSendOutInterest
        · rw [← hrs]
          exact wf_bumpSeq h
        · simp
        · exact Nat.lt_succ_self _
    · by_cases hsent : s = UINT32_MAX
      · subst hsent
        simp [SendPacket, if_neg ha, hrs]
        split
        · exact wf_popRetx h hrs
        · apply wf_WaitBeforeSendOutInterest
          · exact wf_bumpSeq (wf_popRetx h hrs)
          · intro hk
            have hk2 : st.m_seq ∈ st.m_retxSeqs := by
              rw [hrs]
              exact List.mem_cons_of_mem _ hk
            have := h.presentLtSeq st.m_seq
              (Or.inr (Or.inr (Or.inr (Or.inr hk2))))
            omega
          · exact Nat.lt_succ_self _
      · simp [SendPacket, if_neg ha, hrs, if_neg hsent]
        apply wf_WaitBeforeSendOutInterest
        · exact wf_popRetx h hrs
        · intro hk
          have hsorted := h.sortedRetx
          rw [hrs, List.pairwise_cons] at hsorted
          have := hsorted.1 s hk
          omega
        · apply h.presentLtSeq
          refine Or.inr (Or.inr (Or.inr (Or.inr ?_)))
          rw [hrs]
          exact List.mem_cons_self _ _

theorem stFind_some_mem {c : List SeqTimeout} {s : Nat} {e : SeqTimeout}
    (h : stFind c s = some e) : s ∈ keysST c := by
  have hm := List.mem_of_find?_eq_some h
  have hp := List.find?_some h
  simp only [beq_iff_eq] at hp
  exact hp ▸ List.mem_map_of_mem SeqTimeout.seq hm

theorem onData_state_eq {st : ConsumerState} {seq now hop : Nat} (h : Wf st)
    (ha : st.m_active = true) :
    (OnData seq now hop st).1 = resolutionErase seq st := by
  have hcond : ¬ (st.m_active = false) := by simp [ha]
  simp only [OnData, if_neg hcond]
  cases hf : stFind st.m_seqFullDelay seq with
  | none => rfl
  | some entry =>
    have hmem : seq ∈ keysM st.m_seqRetxCounts :=
      (h.countsFull seq).mpr (stFind_some_mem hf)
    simp only [mapIndexGet_of_mem h.sortedCounts hmem]

theorem wf_OnData {st : ConsumerState} {seq now hop : Nat} (h : Wf st) :
    Wf (OnData seq now hop st).1 := by
  by_cases ha : st.m_active = false
  · simp only [OnData, if_pos ha]
    exact h
  · rw [onData_state_eq h (by revert ha; cases st.m_active <;> simp)]
    exact wf_resolutionErase h

theorem wf_stepEvent {e : Event} {st : ConsumerState} (h : Wf st) :
    Wf (stepEvent e st).1 := by
  cases e with
  | send now => exact wf_SendPacket h
  | check now rto => exact wf_CheckRetxTimeout h
  | data seq now hop => exact wf_OnData h

theorem wf_runEvents {evs : List Event} {st : ConsumerState} (h : Wf st) :
    Wf (runEvents evs st).1 := by
  induction evs generalizing st with
  | nil => exact h
  | cons e es ih =>
    simp only [runEvents]
    exact ih (wf_stepEvent h)

/-! ## Resolution events: acknowledgments and discards

An *acknowledgment event* for a sequence is a dispatch of `OnData` that
emits at least one delay-metric observation for it; a *discard event*
is the budget-exhausted branch of `OnTimeout` (observable as the
`DiscardInterestBySeq` call to the estimator). -/

/-- Is the effect a delay-metric observation for `seq`? -/
def isTraceFor (seq : Nat) : Effect → Bool
  | .traceLastDelay s _ _ => s == seq
  | .traceFirstDelay s _ _ _ => s == seq
  | _ => false

/-- Is the effect the discard notification for `seq`? -/
def isDiscardFor (seq : Nat) : Effect → Bool
  | .rttDiscardInterestBySeq s => s == seq
  | _ => false

/-- Is the effect a transmission of `seq`? -/
def isSendOf (seq : Nat) : Effect → Bool
  | .sendInterest s => s == seq
  | _ => false

/-- Resolution events for `seq` in one dispatched event: one
acknowledgment if the handler emitted any delay metric for `seq`, plus
the discard notifications for `seq`. -/
def eventRes (seq : Nat) (e : Event) (st : ConsumerState) : Nat :=
  (if (stepEvent e st).2.any (isTraceFor seq) then 1 else 0) +
    (stepEvent e st).2.countP (isDiscardFor seq)

/-- Total number of resolution events for `seq` along a run. -/
def resCount (seq : Nat) : List Event → ConsumerState → Nat
  | [], _ => 0
  | e :: es, st => eventRes seq e st + resCount seq es (stepEvent e st).1

/-- Sequence `seq` is dead: tracked by no ledger, and the fresh-mint
counter has moved past it, so it can never be sent or tracked again. -/
def Dead (seq : Nat) (st : ConsumerState) : Prop :=
  ¬ seqPresent seq st ∧ seq < st.m_seq

theorem dead_WaitBefore {st : ConsumerState} {q now seq : Nat}
    (hd : Dead seq st) (hne : seq ≠ q) :
    Dead seq (WaitBeforeSendOutInterest q now st).1 := by
  obtain ⟨hp, hlt⟩ := hd
  refine ⟨?_, hlt⟩
  intro hpres
  apply hp
  rcases hpres with hk | hk | hk | hk | hk
  · rcases mem_keysM_mapIncr.mp hk with hk | hk
    · exact Or.inl hk
    · exact absurd hk hne
  · rcases mem_keysST_stInsert.mp hk with hk | hk
    · exact Or.inr (Or.inl hk)
    · exact absurd hk hne
  · rcases mem_keysST_stInsert.mp hk with hk | hk
    · exact Or.inr (Or.inr (Or.inl (mem_keysST_stErase.mp hk).1))
    · exact absurd hk hne
  · rcases mem_keysST_stInsert.mp hk with hk | hk
    · exact Or.inr (Or.inr (Or.inr (Or.inl hk)))
    · exact absurd hk hne
  · exact Or.inr (Or.inr (Or.inr (Or.inr hk)))

theorem sendPacket_res (seq now : Nat) (st : ConsumerState) :
    ((SendPacket now st).2.any (isTraceFor seq) = false) ∧
    ((SendPacket now st).2.countP (isDiscardFor seq) = 0) ∧
    (Dead seq st →
      Dead seq (SendPacket now st).1 ∧
        (SendPacket now st).2.countP (isSendOf seq) = 0) := by
  by_cases ha : st.m_active = false
  · simp [SendPacket, if_pos ha]
  · rcases hrs : st.m_retxSeqs with _ | ⟨s, rest⟩
    · simp only [SendPacket, if_neg ha, hrs, if_true]
      split
      · rename_i hcond
        refine ⟨by simp, by simp, ?_⟩
        intro hd
        refine ⟨?_, by simp⟩
        obtain ⟨hp, hlt⟩ := hd
        refine ⟨?_, hlt⟩
        intro hpres
        apply hp
        rcases hpres with hk | hk | hk | hk | hk
        · exact Or.inl hk
        · exact Or.inr (Or.inl hk)
        · exact Or.inr (Or.inr (Or.inl hk))
        · exact Or.inr (Or.inr (Or.inr (Or.inl hk)))
        · exact absurd hk (List.not_mem_nil _)
      · refine ⟨?_, ?_, ?_⟩
        · simp [WaitBeforeSendOutInterest, isTraceFor]
        · simp [WaitBeforeSendOutInterest, isDiscardFor]
        · intro hd
          obtain ⟨hp, hlt⟩ := hd
          constructor
          · apply dead_WaitBefore
            · refine ⟨?_, Nat.lt_succ_of_lt hlt⟩
              intro hpres
              apply hp
              rcases hpres with hk | hk | hk | hk | hk
              · exact Or.inl hk
              · exact Or.inr (Or.inl hk)
              · exact Or.inr (Or.inr (Or.inl hk))
              · exact Or.inr (Or.inr (Or.inr (Or.inl hk)))
              · exact absurd hk (List.not_mem_nil _)
            · omega
          · simp [WaitBeforeSendOutInterest, isSendOf]
            omega
    · by_cases hsent : s = UINT32_MAX
      · subst hsent
        simp only [SendPacket, if_neg ha, hrs, if_true]
        split
        · refine ⟨by simp, by simp, ?_⟩
          intro hd
          obtain ⟨hp, hlt⟩ := hd
          refine ⟨⟨?_, hlt⟩, by simp⟩
          intro hpres
          apply hp
          rcases hpres with hk | hk | hk | hk | hk
          · exact Or.inl hk
          · exact Or.inr (Or.inl hk)
          · exact Or.inr (Or.inr (Or.inl hk))
          · exact Or.inr (Or.inr (Or.inr (Or.inl hk)))
          · refine Or.inr (Or.inr (Or.inr (Or.inr ?_)))
            rw [hrs]
            exact List.mem_cons_of_mem _ hk
        · refine ⟨?_, ?_, ?_⟩
          · simp [WaitBeforeSendOutInterest, isTraceFor]
          · simp [WaitBeforeSendOutInterest, isDiscardFor]
          · intro hd
            obtain ⟨hp, hlt⟩ := hd
            constructor
            · apply dead_WaitBefore
              · refine ⟨?_, Nat.lt_succ_of_lt hlt⟩
                intro hpres
                apply hp
                rcases hpres with hk | hk | hk | hk | hk
                · exact Or.inl hk
                · exact Or.inr (Or.inl hk)
                · exact Or.inr (Or.inr (Or.inl hk))
                · exact Or.inr (Or.inr (Or.inr (Or.inl hk)))
                · refine Or.inr (Or.inr (Or.inr (Or.inr ?_)))
                  rw [hrs]
                  exact List.mem_cons_of_mem _ hk
              · omega
            · simp [WaitBeforeSendOutInterest, isSendOf]
              omega
      · simp only [SendPacket, if_neg ha, hrs, if_neg hsent]
        refine ⟨?_, ?_, ?_⟩
        · simp [WaitBeforeSendOutInterest, isTraceFor]
        · simp [WaitBeforeSendOutInterest, isDiscardFor]
        · intro hd
          obtain ⟨hp, hlt⟩ := hd
          have hne : seq ≠ s := by
            rintro rfl
            apply hp
            refine Or.inr (Or.inr (Or.inr (Or.inr ?_)))
            rw [hrs]
            exact List.mem_cons_self _ _
          constructor
          · apply dead_WaitBefore
            · refine ⟨?_, hlt⟩
              intro hpres
              apply hp
              rcases hpres with hk | hk | hk | hk | hk
              · exact Or.inl hk
              · exact Or.inr (Or.inl hk)
              · exact Or.inr (Or.inr (Or.inl hk))
              · exact Or.inr (Or.inr (Or.inr (Or.inl hk)))
              · refine Or.inr (Or.inr (Or.inr (Or.inr ?_)))
                rw [hrs]
                exact List.mem_cons_of_mem _ hk
            · exact hne
          · simp only [WaitBeforeSendOutInterest]
            simp [isSendOf, hne]
            omega

theorem not_present_resolutionErase (seq : Nat) (st : ConsumerState) :
    ¬ seqPresent seq (resolutionErase seq st) := by
  intro hk
  rcases hk with hk | hk | hk | hk | hk
  · exact (mem_keysM_mapErase.mp hk).2 rfl
  · exact (mem_keysST_stErase.mp hk).2 rfl
  · exact (mem_keysST_stErase.mp hk).2 rfl
  · exact (mem_keysST_stErase.mp hk).2 rfl
  · exact (mem_setErase.mp hk).2 rfl

theorem dead_resolutionErase {seq q : Nat} {st : ConsumerState} (hd : Dead seq st) :
    Dead seq (resolutionErase q st) := by
  obtain ⟨hp, hlt⟩ := hd
  refine ⟨?_, hlt⟩
  intro hk
  apply hp
  rcases hk with hk | hk | hk | hk | hk
  · exact Or.inl (mem_keysM_mapErase.mp hk).1
  · exact Or.inr (Or.inl (mem_keysST_stErase.mp hk).1)
  · exact Or.inr (Or.inr (Or.inl (mem_keysST_stErase.mp hk).1))
  · exact Or.inr (Or.inr (Or.inr (Or.inl (mem_keysST_stErase.mp hk).1)))
  · exact Or.inr (Or.inr (Or.inr (Or.inr (mem_setErase.mp hk).1)))

theorem onTimeout_effects (q : Nat) (st : ConsumerState) :
    (OnTimeout q st).2 =
      if (mapIndexGet st.m_seqRetxCounts q).1 < st.m_retxNum then
        [Effect.rttIncreaseMultiplier, Effect.rttSentSeq q 1, Effect.scheduleNext]
      else [Effect.rttIncreaseMultiplier, Effect.rttDiscardInterestBySeq q] := by
  simp only [OnTimeout]
  split <;> rfl

theorem dead_OnTimeout_other {seq q : Nat} {st : ConsumerState}
    (hd : Dead seq st) (hne : q ≠ seq) : Dead seq (OnTimeout q st).1 := by
  obtain ⟨hp, hlt⟩ := hd
  simp only [OnTimeout]
  split
  · refine ⟨?_, hlt⟩
    intro hk
    apply hp
    rcases hk with hk | hk | hk | hk | hk
    · rcases mem_keysM_mapIndexGet.mp hk with hk | hk
      · exact Or.inl hk
      · exact absurd hk.symm hne
    · exact Or.inr (Or.inl hk)
    · exact Or.inr (Or.inr (Or.inl hk))
    · exact Or.inr (Or.inr (Or.inr (Or.inl hk)))
    · rcases mem_setInsert.mp hk with hk | hk
      · exact Or.inr (Or.inr (Or.inr (Or.inr hk)))
      · exact absurd hk.symm hne
  · refine ⟨?_, hlt⟩
    intro hk
    apply hp
    rcases hk with hk | hk | hk | hk | hk
    · rcases mem_keysM_mapIndexGet.mp (mem_keysM_mapErase.mp hk).1 with hk2 | hk2
      · exact Or.inl hk2
      · exact absurd hk2.symm hne
    · exact Or.inr (Or.inl (mem_keysST_stErase.mp hk).1)
    · exact Or.inr (Or.inr (Or.inl (mem_keysST_stErase.mp hk).1))
    · exact Or.inr (Or.inr (Or.inr (Or.inl (mem_keysST_stErase.mp hk).1)))
    · exact Or.inr (Or.inr (Or.inr (Or.inr hk)))

theorem dead_onTimeout_self {seq : Nat} {st : ConsumerState}
    (hnr : seq ∉ st.m_retxSeqs) (hlt : seq < st.m_seq)
    (hbr : ¬ ((mapIndexGet st.m_seqRetxCounts seq).1 < st.m_retxNum)) :
    Dead seq (OnTimeout seq st).1 := by
  simp only [OnTimeout, if_neg hbr]
  refine ⟨?_, hlt⟩
  intro hk
  rcases hk with hk | hk | hk | hk | hk
  · exact (mem_keysM_mapErase.mp hk).2 rfl
  · exact (mem_keysST_stErase.mp hk).2 rfl
  · exact (mem_keysST_stErase.mp hk).2 rfl
  · exact (mem_keysST_stErase.mp hk).2 rfl
  · exact hnr hk

theorem onData_res {seq q now hop : Nat} {st : ConsumerState} (h : Wf st) :
    ((OnData q now hop st).2.countP (isDiscardFor seq) = 0) ∧
    ((OnData q now hop st).2.countP (isSendOf seq) = 0) ∧
    ((OnData q now hop st).2.any (isTraceFor seq) = true →
        Dead seq (OnData q now hop st).1) ∧
    (Dead seq st →
        (OnData q now hop st).2.any (isTraceFor seq) = false ∧
        Dead seq (OnData q now hop st).1) := by
  by_cases ha : st.m_active = false
  · simp only [OnData, if_pos ha]
    refine ⟨by simp, by simp, by simp, ?_⟩
    intro hd
    exact ⟨by simp, hd⟩
  · have hact : st.m_active = true := by revert ha; cases st.m_active <;> simp
    have hst : (OnData q now hop st).1 = resolutionErase q st := onData_state_eq h hact
    have hdead_of_mem : q = seq → seqPresent seq st → Dead seq (OnData q now hop st).1 := by
      rintro rfl hpres
      rw [hst]
      exact ⟨not_present_resolutionErase q st, h.presentLtSeq q hpres⟩
    cases hl : stFind st.m_seqLastDelay q with
    | none =>
      cases hf : stFind st.m_seqFullDelay q with
      | none =>
        have heff : (OnData q now hop st).2 = [Effect.rttAckSeq q] := by
          simp [OnData, if_neg ha, hl, hf]
        rw [heff]
        refine ⟨by simp [isDiscardFor], by simp [isSendOf], ?_, ?_⟩
        · intro hany
          simp [isTraceFor] at hany
        · intro hd
          rw [hst]
          exact ⟨by simp [isTraceFor], dead_resolutionErase hd⟩
      | some entry =>
        have hqf : q ∈ keysST st.m_seqFullDelay := stFind_some_mem hf
        have heff : (OnData q now hop st).2 =
            [Effect.traceFirstDelay q (now - entry.time)
              (mapIndexGet st.m_seqRetxCounts q).1 hop, Effect.rttAckSeq q] := by
          simp [OnData, if_neg ha, hl, hf]
        rw [heff]
        refine ⟨by simp [isDiscardFor], by simp [isSendOf], ?_, ?_⟩
        · intro hany
          simp only [List.any_cons, List.any_nil, isTraceFor, Bool.or_false,
            Bool.or_eq_true, beq_iff_eq] at hany
          subst hany
          exact hdead_of_mem rfl (Or.inr (Or.inl hqf))
        · intro hd
          have hne : q ≠ seq := by
            rintro rfl
            exact hd.1 (Or.inr (Or.inl hqf))
          refine ⟨?_, hst ▸ dead_resolutionErase hd⟩
          simp [isTraceFor, hne]
    | some lentry =>
      have hql : q ∈ keysST st.m_seqLastDelay := stFind_some_mem hl
      cases hf : stFind st.m_seqFullDelay q with
      | none =>
        have heff : (OnData q now hop st).2 =
            [Effect.traceLastDelay q (now - lentry.time) hop, Effect.rttAckSeq q] := by
          simp [OnData, if_neg ha, hl, hf]
        rw [heff]
        refine ⟨by simp [isDiscardFor], by simp [isSendOf], ?_, ?_⟩
        · intro hany
          simp only [List.any_cons, List.any_nil, isTraceFor, Bool.or_false,
            Bool.or_eq_true, beq_iff_eq] at hany
          subst hany
          exact hdead_of_mem rfl (Or.inr (Or.inr (Or.inl hql)))
        · intro hd
          have hne : q ≠ seq := by
            rintro rfl
            exact hd.1 (Or.inr (Or.inr (Or.inl hql)))
          refine ⟨?_, hst ▸ dead_resolutionErase hd⟩
          simp [isTraceFor, hne]
      | some entry =>
        have hqf : q ∈ keysST st.m_seqFullDelay := stFind_some_mem hf
        have heff : (OnData q now hop st).2 =
            [Effect.traceLastDelay q (now - lentry.time) hop,
             Effect.traceFirstDelay q (now - entry.time)
               (mapIndexGet st.m_seqRetxCounts q).1 hop, Effect.rttAckSeq q] := by
          simp [OnData, if_neg ha, hl, hf]
        rw [heff]
        refine ⟨by simp [isDiscardFor], by simp [isSendOf], ?_, ?_⟩
        · intro hany
          simp only [List.any_cons, List.any_nil, isTraceFor, Bool.or_false,
            Bool.or_eq_true, beq_iff_eq] at hany
          rcases hany with rfl | rfl
          · exact hdead_of_mem rfl (Or.inr (Or.inl hqf))
          · exact hdead_of_mem rfl (Or.inr (Or.inl hqf))
        · intro hd
          have hne : q ≠ seq := by
            rintro rfl
            exact hd.1 (Or.inr (Or.inl hqf))
          refine ⟨?_, hst ▸ dead_resolutionErase hd⟩
          simp [isTraceFor, hne]

theorem checkLoop_res (seq : Nat) (fuel now rto : Nat) (st : ConsumerState) (h : Wf st) :
    ((checkLoop fuel now rto st).2.any (isTraceFor seq) = false) ∧
    ((checkLoop fuel now rto st).2.countP (isSendOf seq) = 0) ∧
    ((checkLoop fuel now rto st).2.countP (isDiscardFor seq) ≤ 1) ∧
    ((checkLoop fuel now rto st).2.countP (isDiscardFor seq) = 1 →
        Dead seq (checkLoop fuel now rto st).1) ∧
    (Dead seq st →
        (checkLoop fuel now rto st).2.countP (isDiscardFor seq) = 0 ∧
        Dead seq (checkLoop fuel now rto st).1) := by
  induction fuel generalizing st with
  | zero =>
    simp only [checkLoop]
    exact ⟨by simp, by simp, by simp, by simp, fun hd => ⟨by simp, hd⟩⟩
  | succ fuel ih =>
    cases he : st.m_seqTimeouts with
    | nil =>
      simp only [checkLoop, he]
      exact ⟨by simp, by simp, by simp, by simp, fun hd => ⟨by simp, hd⟩⟩
    | cons entry rest =>
      simp only [checkLoop, he]
      split
      · have hwf1 : Wf { st with m_seqTimeouts := rest } := wf_popTimeout h he
        have hmem : entry.seq ∈ keysM st.m_seqRetxCounts := by
          apply h.timeoutsSub
          rw [he]
          exact List.mem_cons_self _ _
        have hnt : entry.seq ∉ keysST rest := by
          have hnd := h.nodupTimeouts
          rw [he] at hnd
          exact (List.nodup_cons.mp hnd).1
        have hnr : entry.seq ∉ st.m_retxSeqs := by
          intro hk
          apply h.retxTimeoutsDisj entry.seq hk
          rw [he]
          exact List.mem_cons_self _ _
        have hltq : entry.seq < st.m_seq := by
          apply h.presentLtSeq
          refine Or.inr (Or.inr (Or.inr (Or.inl ?_)))
          rw [he]
          exact List.mem_cons_self _ _
        have hwf2 : Wf (OnTimeout entry.seq { st with m_seqTimeouts := rest }).1 :=
          wf_OnTimeout hwf1 hmem hnt hnr
        have IH := ih _ hwf2
        obtain ⟨ih1, ih2, ih3, ih4, ih5⟩ := IH
        have heff := onTimeout_effects entry.seq { st with m_seqTimeouts := rest }
        have hdeadpop : Dead seq st → Dead seq { st with m_seqTimeouts := rest } := by
          rintro ⟨hp, hlt⟩
          refine ⟨?_, hlt⟩
          intro hk
          apply hp
          rcases hk with hk | hk | hk | hk | hk
          · exact Or.inl hk
          · exact Or.inr (Or.inl hk)
          · exact Or.inr (Or.inr (Or.inl hk))
          · refine Or.inr (Or.inr (Or.inr (Or.inl ?_)))
            rw [he]
            exact List.mem_cons_of_mem _ hk
          · exact Or.inr (Or.inr (Or.inr (Or.inr hk)))
        have hdead_ne : Dead seq st → entry.seq ≠ seq := by
          rintro ⟨hp, _⟩ rfl
          apply hp
          refine Or.inr (Or.inr (Or.inr (Or.inl ?_)))
          rw [he]
          exact List.mem_cons_self _ _
        by_cases hbr :
            (mapIndexGet st.m_seqRetxCounts entry.seq).1 < st.m_retxNum
        · rw [if_pos hbr] at heff
          rw [heff]
          refine ⟨?_, ?_, ?_, ?_, ?_⟩
          · simp only [List.any_append, ih1, Bool.or_false]
            simp [isTraceFor]
          · simp only [List.countP_append, ih2]
            simp [isSendOf]
          · simp only [List.countP_append]
            have hz : List.countP (isDiscardFor seq)
                [Effect.rttIncreaseMultiplier, Effect.rttSentSeq entry.seq 1,
                 Effect.scheduleNext] = 0 := by simp [isDiscardFor]
            omega
          · simp only [List.countP_append]
            have hz : List.countP (isDiscardFor seq)
                [Effect.rttIncreaseMultiplier, Effect.rttSentSeq entry.seq 1,
                 Effect.scheduleNext] = 0 := by simp [isDiscardFor]
            intro hone
            exact ih4 (by omega)
          · intro hd
            have hd2 : Dead seq (OnTimeout entry.seq { st with m_seqTimeouts := rest }).1 :=
              dead_OnTimeout_other (hdeadpop hd) (hdead_ne hd)
            obtain ⟨hc0, hdfin⟩ := ih5 hd2
            refine ⟨?_, hdfin⟩
            simp only [List.countP_append, hc0]
            simp [isDiscardFor]
        · rw [if_neg hbr] at heff
          rw [heff]
          by_cases hqs : entry.seq = seq
          · subst hqs
            have hd2 : Dead entry.seq
                (OnTimeout entry.seq { st with m_seqTimeouts := rest }).1 :=
              dead_onTimeout_self hnr hltq hbr
            obtain ⟨hc0, hdfin⟩ := ih5 hd2
            have hone : List.countP (isDiscardFor entry.seq)
                [Effect.rttIncreaseMultiplier,
                 Effect.rttDiscardInterestBySeq entry.seq] = 1 := by
              simp [isDiscardFor]
            refine ⟨?_, ?_, ?_, ?_, ?_⟩
            · simp only [List.any_append, ih1, Bool.or_false]
              simp [isTraceFor]
            · simp only [List.countP_append, ih2]
              simp [isSendOf]
            · simp only [List.countP_append, hone, hc0]
              omega
            · intro _
              exact hdfin
            · intro hd
              exact absurd rfl (hdead_ne hd)
          · have hz : List.countP (isDiscardFor seq)
                [Effect.rttIncreaseMultiplier,
                 Effect.rttDiscardInterestBySeq entry.seq] = 0 := by
              simp [isDiscardFor, hqs]
            refine ⟨?_, ?_, ?_, ?_, ?_⟩
            · simp only [List.any_append, ih1, Bool.or_false]
              simp [isTraceFor]
            · simp only [List.countP_append, ih2]
              simp [isSendOf]
            · simp only [List.countP_append, hz]
              omega
            · simp only [List.countP_append, hz]
              intro hone
              exact ih4 (by omega)
            · intro hd
              have hd2 : Dead seq (OnTimeout entry.seq { st with m_seqTimeouts := rest }).1 :=
                dead_OnTimeout_other (hdeadpop hd) hqs
              obtain ⟨hc0, hdfin⟩ := ih5 hd2
              refine ⟨?_, hdfin⟩
              simp only [List.countP_append, hz, hc0]
      · exact ⟨by simp, by simp, by simp, by simp, fun hd => ⟨by simp, hd⟩⟩

theorem checkRetx_res (seq now rto : Nat) (st : ConsumerState) (h : Wf st) :
    ((CheckRetxTimeout now rto st).2.any (isTraceFor seq) = false) ∧
    ((CheckRetxTimeout now rto st).2.countP (isSendOf seq) = 0) ∧
    ((CheckRetxTimeout now rto st).2.countP (isDiscardFor seq) ≤ 1) ∧
    ((CheckRetxTimeout now rto st).2.countP (isDiscardFor seq) = 1 →
        Dead seq (CheckRetxTimeout now rto st).1) ∧
    (Dead seq st →
        (CheckRetxTimeout now rto st).2.countP (isDiscardFor seq) = 0 ∧
        Dead seq (CheckRetxTimeout now rto st).1) := by
  obtain ⟨h1, h2, h3, h4, h5⟩ := checkLoop_res seq st.m_seqTimeouts.length now rto st h
  simp only [CheckRetxTimeout]
  have hs1 : (Effect.scheduleRetxCheck
      (checkLoop st.m_seqTimeouts.length now rto st).1.m_retxTimer :: List.nil).any
      (isTraceFor seq) = false := by simp [isTraceFor]
  refine ⟨?_, ?_, ?_, ?_, ?_⟩
  · simp only [List.any_append, h1, Bool.false_or]
    simp [isTraceFor]
  · simp only [List.countP_append, h2]
    simp [isSendOf]
  · simp only [List.countP_append]
    have : List.countP (isDiscardFor seq)
        [Effect.scheduleRetxCheck
          (checkLoop st.m_seqTimeouts.length now rto st).1.m_retxTimer] = 0 := by
      simp [isDiscardFor]
    omega
  · simp only [List.countP_append]
    have hz : List.countP (isDiscardFor seq)
        [Effect.scheduleRetxCheck
          (checkLoop st.m_seqTimeouts.length now rto st).1.m_retxTimer] = 0 := by
      simp [isDiscardFor]
    intro hone
    exact h4 (by omega)
  · intro hd
    obtain ⟨hc0, hdfin⟩ := h5 hd
    refine ⟨?_, hdfin⟩
    simp only [List.countP_append, hc0]
    simp [isDiscardFor]

theorem eventRes_spec {seq : Nat} {e : Event} {st : ConsumerState} (h : Wf st) :
    eventRes seq e st ≤ 1 ∧
    (eventRes seq e st = 1 → Dead seq (stepEvent e st).1) ∧
    (Dead seq st →
        eventRes seq e st = 0 ∧ Dead seq (stepEvent e st).1 ∧
        (stepEvent e st).2.countP (isSendOf seq) = 0) := by
  cases e with
  | send now =>
    obtain ⟨h1, h2, h3⟩ := sendPacket_res seq now st
    simp only [eventRes, stepEvent, h1, h2]
    refine ⟨by simp, by simp, ?_⟩
    intro hd
    obtain ⟨hdfin, hs0⟩ := h3 hd
    exact ⟨by simp, hdfin, hs0⟩
  | check now rto =>
    obtain ⟨h1, h2, h3, h4, h5⟩ := checkRetx_res seq now rto st h
    simp only [eventRes, stepEvent, h1]
    refine ⟨?_, ?_, ?_⟩
    · simpa using h3
    · intro hone
      exact h4 (by simpa using hone)
    · intro hd
      obtain ⟨hc0, hdfin⟩ := h5 hd
      exact ⟨by simp [hc0], hdfin, h2⟩
  | data q now hop =>
    obtain ⟨h1, h2, h3, h4⟩ := @onData_res seq q now hop st h
    simp only [eventRes, stepEvent, h1]
    refine ⟨?_, ?_, ?_⟩
    · split <;> omega
    · intro hone
      apply h3
      by_cases hany : (OnData q now hop st).2.any (isTraceFor seq) = true
      · exact hany
      · rw [if_neg hany] at hone
        simp at hone
    · intro hd
      obtain ⟨hanyf, hdfin⟩ := h4 hd
      refine ⟨?_, hdfin, h2⟩
      simp [hanyf]

theorem resCount_dead {seq : Nat} {evs : List Event} {st : ConsumerState}
    (h : Wf st) (hd : Dead seq st) :
    resCount seq evs st = 0 ∧
    (runEvents evs st).2.countP (isSendOf seq) = 0 ∧
    (runEvents evs st).2.countP (isDiscardFor seq) = 0 ∧
    Dead seq (runEvents evs st).1 := by
  induction evs generalizing st with
  | nil => exact ⟨rfl, by simp [runEvents], by simp [runEvents], hd⟩
  | cons e es ih =>
    obtain ⟨_, _, h3⟩ := @eventRes_spec seq e st h
    obtain ⟨hz, hdstep, hs0⟩ := h3 hd
    have hcd : (stepEvent e st).2.countP (isDiscardFor seq) = 0 := by
      have h0 := hz
      simp only [eventRes] at h0
      split at h0
      · omega
      · omega
    obtain ⟨ih1, ih2, ih3, ih4⟩ := ih (wf_stepEvent h) hdstep
    refine ⟨?_, ?_, ?_, ih4⟩
    · simp only [resCount, hz, ih1]
    · simp only [runEvents, List.countP_append, hs0, ih2]
    · simp only [runEvents, List.countP_append, hcd, ih3]

theorem resCount_le_one_aux {seq : Nat} {evs : List Event} {st : ConsumerState}
    (h : Wf st) : resCount seq evs st ≤ 1 := by
  induction evs generalizing st with
  | nil => simp [resCount]
  | cons e es ih =>
    obtain ⟨h1, h2, _⟩ := @eventRes_spec seq e st h
    by_cases hz : eventRes seq e st = 0
    · simp only [resCount, hz, Nat.zero_add]
      exact ih (wf_stepEvent h)
    · have hone : eventRes seq e st = 1 := by omega
      have hd := h2 hone
      obtain ⟨hz2, _, _, _⟩ := @resCount_dead seq es (stepEvent e st).1 (wf_stepEvent h) hd
      simp only [resCount, hone, hz2]
      omega

theorem runEvents_append (a b : List Event) (st : ConsumerState) :
    runEvents (a ++ b) st =
      ((runEvents b (runEvents a st).1).1,
        (runEvents a st).2 ++ (runEvents b (runEvents a st).1).2) := by
  induction a generalizing st with
  | nil => simp [runEvents]
  | cons e es ih =>
    simp only [List.cons_append, runEvents]
    have hib := ih (stepEvent e st).1
    rw [show (es.append b) = es ++ b from rfl, hib]
    simp [List.append_assoc]

theorem onTimeout_timeouts_length (q : Nat) (st : ConsumerState) :
    ((OnTimeout q st).1.m_seqTimeouts).length ≤ st.m_seqTimeouts.length := by
  simp only [OnTimeout]
  split
  · exact Nat.le_refl _
  · exact (List.filter_sublist _).length_le

/-- One unfolding of the scan loop when the ledger is empty. -/
theorem checkLoop_succ_nil (fuel now rto : Nat) (st : ConsumerState)
    (he : st.m_seqTimeouts = []) :
    checkLoop (fuel + 1) now rto st = (st, []) := by
  simp [checkLoop, he]

/-- One unfolding of the scan loop when the ledger is non-empty. -/
theorem checkLoop_succ_cons (fuel now rto : Nat) (st : ConsumerState)
    (entry : SeqTimeout) (rest : List SeqTimeout)
    (he : st.m_seqTimeouts = entry :: rest) :
    checkLoop (fuel + 1) now rto st =
      if entry.time + rto ≤ now then
        ((checkLoop fuel now rto
            (OnTimeout entry.seq { st with m_seqTimeouts := rest }).1).1,
          (OnTimeout entry.seq { st with m_seqTimeouts := rest }).2 ++
            (checkLoop fuel now rto
              (OnTimeout entry.seq { st with m_seqTimeouts := rest }).1).2)
      else (st, []) := by
  simp [checkLoop, he]

/-- Any fuel at least the container size computes the full scan: the
fuel in `CheckRetxTimeout` is not a semantic bound, only a termination
measure for the `while` loop. -/
theorem checkLoop_fuel_sufficient (fuel now rto : Nat) (st : ConsumerState)
    (hf : st.m_seqTimeouts.length ≤ fuel) :
    checkLoop (fuel + 1) now rto st = checkLoop fuel now rto st := by
  induction fuel generalizing st with
  | zero =>
    have he : st.m_seqTimeouts = [] := List.length_eq_zero.mp (Nat.le_zero.mp hf)
    simp [checkLoop_succ_nil 0 now rto st he, checkLoop, he]
  | succ fuel ih =>
    cases he : st.m_seqTimeouts with
    | nil =>
      rw [checkLoop_succ_nil (fuel + 1) now rto st he, checkLoop_succ_nil fuel now rto st he]
    | cons entry rest =>
      rw [checkLoop_succ_cons (fuel + 1) now rto st entry rest he,
        checkLoop_succ_cons fuel now rto st entry rest he]
      split
      · have hlen : ((OnTimeout entry.seq
            { st with m_seqTimeouts := rest }).1.m_seqTimeouts).length ≤ fuel := by
          have h1 := onTimeout_timeouts_length entry.seq { st with m_seqTimeouts := rest }
          have h2 : rest.length + 1 ≤ fuel + 1 := by
            rw [he] at hf
            simpa using hf
          simp only at h1
          omega
        rw [ih _ hlen]
      · rfl

/-- The sequences handed to the timeout handler, read off the effect
stream: each `OnTimeout` call emits exactly one of `SentSeq` (retry) or
`DiscardInterestBySeq` (abandon) for its sequence. -/
def handledSeqs (effs : List Effect) : List Nat :=
  effs.filterMap (fun e =>
    match e with
    | .rttSentSeq s _ => some s
    | .rttDiscardInterestBySeq s => some s
    | _ => none)

theorem handledSeqs_onTimeout (q : Nat) (st : ConsumerState) :
    handledSeqs (OnTimeout q st).2 = [q] := by
  rw [handledSeqs, onTimeout_effects]
  split <;> rfl

theorem onTimeout_timeouts_of_not_mem {q : Nat} {st : ConsumerState}
    (h : q ∉ keysST st.m_seqTimeouts) :
    (OnTimeout q st).1.m_seqTimeouts = st.m_seqTimeouts := by
  simp only [OnTimeout]
  split
  · rfl
  · exact stErase_of_not_mem h

theorem checkLoop_scan (now rto : Nat) (l : List SeqTimeout) :
    ∀ st : ConsumerState, st.m_seqTimeouts = l → (keysST l).Nodup →
    (checkLoop l.length now rto st).1.m_seqTimeouts
        = l.dropWhile (fun e => decide (e.time + rto ≤ now)) ∧
    handledSeqs (checkLoop l.length now rto st).2
        = (l.takeWhile (fun e => decide (e.time + rto ≤ now))).map SeqTimeout.seq := by
  induction l with
  | nil =>
    intro st he _
    simp only [List.length_nil, checkLoop, List.dropWhile_nil, List.takeWhile_nil]
    exact ⟨he, rfl⟩
  | cons entry rest ih =>
    intro st he hnd
    have hlen : (entry :: rest).length = rest.length + 1 := rfl
    rw [hlen, checkLoop_succ_cons rest.length now rto st entry rest he]
    by_cases hc : entry.time + rto ≤ now
    · rw [if_pos hc]
      have hq : entry.seq ∉ keysST rest := by
        simp only [keysST, List.map_cons, List.nodup_cons] at hnd
        exact hnd.1
      have hst2 : (OnTimeout entry.seq
          { st with m_seqTimeouts := rest }).1.m_seqTimeouts = rest :=
        onTimeout_timeouts_of_not_mem (by simpa using hq)
      have hnd2 : (keysST rest).Nodup := by
        simp only [keysST, List.map_cons, List.nodup_cons] at hnd
        exact hnd.2
      obtain ⟨ih1, ih2⟩ := ih _ hst2 hnd2
      constructor
      · rw [List.dropWhile_cons_of_pos (by simpa using hc)]
        exact ih1
      · rw [List.takeWhile_cons_of_pos (by simpa using hc)]
        simp only [handledSeqs, List.filterMap_append] at ih2 ⊢
        rw [show (OnTimeout entry.seq
            { st with m_seqTimeouts := rest }).2.filterMap _
            = handledSeqs (OnTimeout entry.seq { st with m_seqTimeouts := rest }).2
            from rfl, handledSeqs_onTimeout]
        simp only [List.map_cons, List.cons_append, List.nil_append]
        rw [ih2]
    · rw [if_neg hc]
      constructor
      · rw [List.dropWhile_cons_of_neg (by simpa using hc)]
        exact he
      · rw [List.takeWhile_cons_of_neg (by simpa using hc)]
        rfl

theorem dropWhile_none_expired {rto now : Nat} {l : List SeqTimeout}
    (hsort : l.Pairwise (fun a b => a.time ≤ b.time)) :
    ∀ e ∈ l.dropWhile (fun e => decide (e.time + rto ≤ now)), ¬ (e.time + rto ≤ now) := by
  induction l with
  | nil => simp
  | cons x xs ih =>
    rw [List.pairwise_cons] at hsort
    by_cases hc : x.time + rto ≤ now
    · rw [List.dropWhile_cons_of_pos (by simpa using hc)]
      exact ih hsort.2
    · rw [List.dropWhile_cons_of_neg (by simpa using hc)]
      intro e hme
      rcases List.mem_cons.mp hme with rfl | hme
      · exact hc
      · have := hsort.1 e hme
        omega

/-- Is the effect the estimator mark (`SentSeq`) that `OnTimeout` emits
exactly when it schedules a retransmission?  An execution retransmits
nothing iff no such effect occurs. -/
def isRetxMark : Effect → Bool
  | .rttSentSeq _ _ => true
  | _ => false

/-- The sequence numbers transmitted in an effect stream, in order. -/
def sentSeqs (effs : List Effect) : List Nat :=
  effs.filterMap (fun e =>
    match e with
    | .sendInterest s => some s
    | _ => none)

theorem sentSeqs_append (a b : List Effect) :
    sentSeqs (a ++ b) = sentSeqs a ++ sentSeqs b := by
  simp [sentSeqs, List.filterMap_append]

theorem checkLoop_noRetx (fuel now rto : Nat) :
    ∀ st : ConsumerState,
    (checkLoop fuel now rto st).2.countP isRetxMark = 0 →
    (checkLoop fuel now rto st).1.m_retxSeqs = st.m_retxSeqs ∧
    (checkLoop fuel now rto st).1.m_seq = st.m_seq ∧
    (checkLoop fuel now rto st).1.m_seqMax = st.m_seqMax ∧
    sentSeqs (checkLoop fuel now rto st).2 = [] := by
  induction fuel with
  | zero =>
    intro st _
    exact ⟨rfl, rfl, rfl, rfl⟩
  | succ fuel ih =>
    intro st hnr
    cases he : st.m_seqTimeouts with
    | nil =>
      rw [checkLoop_succ_nil fuel now rto st he]
      exact ⟨rfl, rfl, rfl, rfl⟩
    | cons entry rest =>
      rw [checkLoop_succ_cons fuel now rto st entry rest he] at hnr ⊢
      by_cases hc : entry.time + rto ≤ now
      · rw [if_pos hc] at hnr ⊢
        by_cases hbr : (mapIndexGet
            ({ st with m_seqTimeouts := rest }).m_seqRetxCounts entry.seq).1
            < ({ st with m_seqTimeouts := rest }).m_retxNum
        · exfalso
          have heff := onTimeout_effects entry.seq { st with m_seqTimeouts := rest }
          rw [if_pos hbr] at heff
          rw [heff] at hnr
          simp [isRetxMark, List.countP_append] at hnr
        · have heff := onTimeout_effects entry.seq { st with m_seqTimeouts := rest }
          rw [if_neg hbr] at heff
          rw [heff] at hnr ⊢
          simp only [List.countP_append] at hnr
          have hz : List.countP isRetxMark
              [Effect.rttIncreaseMultiplier,
               Effect.rttDiscardInterestBySeq entry.seq] = 0 := by
            simp [isRetxMark]
          have htail := ih (OnTimeout entry.seq { st with m_seqTimeouts := rest }).1
            (by omega)
          have hdisc : (OnTimeout entry.seq { st with m_seqTimeouts := rest }).1.m_retxSeqs
                = st.m_retxSeqs ∧
              (OnTimeout entry.seq { st with m_seqTimeouts := rest }).1.m_seq = st.m_seq ∧
              (OnTimeout entry.seq { st with m_seqTimeouts := rest }).1.m_seqMax
                = st.m_seqMax := by
            simp only [OnTimeout, if_neg hbr]
            refine ⟨?_, ?_, ?_⟩ <;> trivial
          obtain ⟨t1, t2, t3, t4⟩ := htail
          refine ⟨?_, ?_, ?_, ?_⟩
          · rw [t1, hdisc.1]
          · rw [t2, hdisc.2.1]
          · rw [t3, hdisc.2.2]
          · rw [sentSeqs_append, t4]
            simp [sentSeqs]
      · rw [if_neg hc]
        exact ⟨rfl, rfl, rfl, rfl⟩

theorem step_noRetx (e : Event) (st : ConsumerState)
    (hretx : st.m_retxSeqs = [])
    (hnr : (stepEvent e st).2.countP isRetxMark = 0) :
    (stepEvent e st).1.m_retxSeqs = [] ∧
    (stepEvent e st).1.m_seqMax = st.m_seqMax ∧
    ((sentSeqs (stepEvent e st).2 = [] ∧ (stepEvent e st).1.m_seq = st.m_seq) ∨
     (sentSeqs (stepEvent e st).2 = [st.m_seq] ∧
      (stepEvent e st).1.m_seq = st.m_seq + 1 ∧
      (st.m_seqMax = UINT32_MAX ∨ st.m_seq < st.m_seqMax))) := by
  cases e with
  | send now =>
    by_cases ha : st.m_active = false
    · simp only [stepEvent, SendPacket, if_pos ha]
      exact ⟨hretx, trivial, Or.inl ⟨rfl, trivial⟩⟩
    · simp only [stepEvent, SendPacket, if_neg ha, hretx, if_true]
      split
      · rename_i hlim
        exact ⟨rfl, rfl, Or.inl ⟨rfl, rfl⟩⟩
      · rename_i hlim
        refine ⟨rfl, rfl, Or.inr ⟨?_, rfl, ?_⟩⟩
        · simp [WaitBeforeSendOutInterest, sentSeqs]
        · by_cases hmax : st.m_seqMax = UINT32_MAX
          · exact Or.inl hmax
          · right
            rcases Nat.lt_or_ge st.m_seq st.m_seqMax with hlt | hge
            · exact hlt
            · exact absurd ⟨hmax, hge⟩ hlim
  | check now rto =>
    simp only [stepEvent, CheckRetxTimeout] at hnr ⊢
    simp only [List.countP_append] at hnr
    have hz : List.countP isRetxMark
        [Effect.scheduleRetxCheck
          (checkLoop st.m_seqTimeouts.length now rto st).1.m_retxTimer] = 0 := by
      simp [isRetxMark]
    obtain ⟨t1, t2, t3, t4⟩ :=
      checkLoop_noRetx st.m_seqTimeouts.length now rto st (by omega)
    refine ⟨by rw [t1, hretx], t3, Or.inl ⟨?_, t2⟩⟩
    rw [sentSeqs_append, t4]
    simp [sentSeqs]
  | data q now hop =>
    by_cases ha : st.m_active = false
    · simp only [stepEvent, OnData, if_pos ha]
      exact ⟨hretx, trivial, Or.inl ⟨rfl, trivial⟩⟩
    · simp only [stepEvent, OnData, if_neg ha]
      cases hl : stFind st.m_seqLastDelay q <;>
        cases hf : stFind st.m_seqFullDelay q <;>
          simp [resolutionErase, hretx, setErase, sentSeqs]

theorem noRetx_run (evs : List Event) :
    ∀ st : ConsumerState, st.m_retxSeqs = [] →
    (runEvents evs st).2.countP isRetxMark = 0 →
    List.Chain' (· < ·) (sentSeqs (runEvents evs st).2) ∧
    (∀ q ∈ sentSeqs (runEvents evs st).2,
      st.m_seq ≤ q ∧ q < (runEvents evs st).1.m_seq ∧
      (st.m_seqMax ≠ UINT32_MAX → q < st.m_seqMax)) ∧
    st.m_seq ≤ (runEvents evs st).1.m_seq ∧
    (runEvents evs st).1.m_retxSeqs = [] ∧
    (runEvents evs st).1.m_seqMax = st.m_seqMax := by
  induction evs with
  | nil =>
    intro st hretx _
    exact ⟨by simp [runEvents, sentSeqs], by simp [runEvents, sentSeqs],
      Nat.le_refl _, hretx, rfl⟩
  | cons e es ih =>
    intro st hretx hnr
    simp only [runEvents, List.countP_append] at hnr ⊢
    have hnr1 : (stepEvent e st).2.countP isRetxMark = 0 := by omega
    have hnr2 : (runEvents es (stepEvent e st).1).2.countP isRetxMark = 0 := by omega
    obtain ⟨s1, s2, s3⟩ := step_noRetx e st hretx hnr1
    obtain ⟨i1, i2, i3, i4, i5⟩ := ih (stepEvent e st).1 s1 hnr2
    rw [sentSeqs_append]
    rcases s3 with ⟨hse, hsq⟩ | ⟨hse, hsq, hcond⟩
    · rw [hse, List.nil_append]
      refine ⟨i1, ?_, ?_, i4, by rw [i5, s2]⟩
      · intro q hq
        obtain ⟨b1, b2, b3⟩ := i2 q hq
        refine ⟨by omega, b2, ?_⟩
        intro hmax
        rw [s2] at b3
        have := b3 hmax
        omega
      · omega
    · rw [hse]
      have hhead : ∀ q ∈ sentSeqs (runEvents es (stepEvent e st).1).2, st.m_seq < q := by
        intro q hq
        have := (i2 q hq).1
        omega
      refine ⟨?_, ?_, ?_, i4, by rw [i5, s2]⟩
      · rw [List.singleton_append]
        rw [List.chain'_cons']
        refine ⟨?_, i1⟩
        intro b hb
        apply hhead
        exact List.mem_of_mem_head? hb
      · intro q hq
        rcases List.mem_append.mp hq with hq | hq
        · rcases List.mem_singleton.mp hq with rfl
          refine ⟨Nat.le_refl _, by omega, ?_⟩
          intro hmax
          rcases hcond with hcond | hcond
          · exact absurd hcond hmax
          · exact hcond
        · obtain ⟨b1, b2, b3⟩ := i2 q hq
          refine ⟨by omega, b2, ?_⟩
          intro hmax
          rw [s2] at b3
          have := b3 hmax
          omega
      · omega

/-! ## The claims -/

/-- Configuration of scenario A: retry budget 3 (the constructor
default `m_retxNum(3)`), `m_seqMax = 1` so exactly one fresh sequence
is minted, consumer active. -/
def scenarioA_state : ConsumerState := initState 0 1 3 50 true

/-- Event schedule of scenario A: the initial send, then alternating
periodic timeout checks (each finding the pending entry expired, RTO
50, checks at 100/200/300) and the resends they trigger; sequence 0
never receives Data. -/
def scenarioA_events : List Event :=
  [Event.send 0, Event.check 100 50, Event.send 100,
   Event.check 200 50, Event.send 200, Event.check 300 50]

/-- C1 counterexample: with the default retry budget `m_retxNum = 3`,
the unanswered sequence 0 is transmitted only 3 times before the
timeout handler discards it — there is no 4th transmission, because
`OnTimeout` retries only while `m_seqRetxCounts[seq] < m_retxNum` and
that counter already counts the original send (the code comment at
ndn-consumer.cpp:85 says "We allow retransmition twice"). -/
theorem c1_counterexample :
    ((runEvents scenarioA_events scenarioA_state).2.countP (isSendOf 0) = 3) ∧
    ((runEvents scenarioA_events scenarioA_state).2.countP (isDiscardFor 0) = 1) ∧
    ((runEvents scenarioA_events scenarioA_state).2.countP (isSendOf 0) ≠ 4) := by
  decide

/-- C1 (amended): with the retry budget configured to 3 (the default
`m_retxNum`), a single sequence number that never receives a Data
response is sent exactly 3 times in total (1 original send plus 2
retransmissions) and is then permanently discarded by the timeout
handler; no 4th send of that sequence ever occurs, and it is never
discarded a second time, whatever events are dispatched afterwards. -/
theorem c1_no_fourth_send (evs : List Event) :
    ((runEvents (scenarioA_events ++ evs) scenarioA_state).2.countP (isSendOf 0) = 3) ∧
    ((runEvents (scenarioA_events ++ evs) scenarioA_state).2.countP (isDiscardFor 0) = 1) := by
  rw [runEvents_append]
  simp only [List.countP_append]
  have hpre1 : (runEvents scenarioA_events scenarioA_state).2.countP (isSendOf 0) = 3 := by
    decide
  have hpre2 : (runEvents scenarioA_events scenarioA_state).2.countP (isDiscardFor 0) = 1 := by
    decide
  have hwf : Wf (runEvents scenarioA_events scenarioA_state).1 :=
    wf_runEvents (wf_initState 0 1 3 50 true)
  have hfin : (runEvents scenarioA_events scenarioA_state).1 = initState 1 1 3 50 true := by
    decide
  have hdead : Dead 0 (runEvents scenarioA_events scenarioA_state).1 := by
    rw [hfin]
    refine ⟨?_, Nat.zero_lt_one⟩
    intro hp
    rcases hp with hp | hp | hp | hp | hp <;> simp [initState, keysM, keysST] at hp
  obtain ⟨_, hs0, hd0, _⟩ := @resCount_dead 0 evs _ hwf hdead
  rw [hpre1, hpre2, hs0, hd0]
  exact ⟨rfl, rfl⟩

/-- Predicate of a first-send ("full") delay observation for `seq`. -/
def isFirstDelayFor (seq : Nat) : Effect → Bool
  | .traceFirstDelay s _ _ _ => s == seq
  | _ => false

/-- Predicate of a first-send delay observation whose retx-count field
is `n`. -/
def reportsRetx (n : Nat) : Effect → Bool
  | .traceFirstDelay _ _ r _ => r == n
  | _ => false

/-- Boolean form of `seqPresent`: is `seq` in any of the five ledgers? -/
def seqTracked (seq : Nat) (st : ConsumerState) : Bool :=
  (keysM st.m_seqRetxCounts).contains seq || (keysST st.m_seqFullDelay).contains seq ||
    (keysST st.m_seqLastDelay).contains seq || (keysST st.m_seqTimeouts).contains seq ||
    st.m_retxSeqs.contains seq

/-- Configuration of scenario B: the consumer mints sequence 7
(`StartSeq = 7`, `m_seqMax = 8`), budget 3, active. -/
def scenarioB_state : ConsumerState := initState 7 8 3 50 true

/-- Event schedule of scenario B: sequence 7 is sent, times out and is
retransmitted twice, then its Data arrives at time 250 with hop count
2. -/
def scenarioB_events : List Event :=
  [Event.send 0, Event.check 100 50, Event.send 100,
   Event.check 200 50, Event.send 200, Event.data 7 250 2]

/-- C2 counterexample: after sequence 7 has been retransmitted exactly
2 times (3 transmissions in total), the first-send delay observation
emitted by `OnData` carries `m_seqRetxCounts[7] = 3` — the number of
transmissions including the original — not the claimed retry count 2;
no observation reporting 2 is emitted. -/
theorem c2_counterexample :
    ((runEvents scenarioB_events scenarioB_state).2.countP (isSendOf 7) = 3) ∧
    ((runEvents scenarioB_events scenarioB_state).2.countP (reportsRetx 2) = 0) ∧
    ((runEvents scenarioB_events scenarioB_state).2.filter (isFirstDelayFor 7)
      = [Effect.traceFirstDelay 7 250 3 2]) := by
  decide

/-- C2 (amended): when Data for a sequence arrives after exactly 2
retransmissions, the single first-send delay observation emitted by
`OnData` reports a count of 3 — `m_seqRetxCounts` counts transmissions
(original included), not retries — and afterwards no ledger
(`m_seqTimeouts`, `m_seqFullDelay`, `m_seqLastDelay`,
`m_seqRetxCounts`, `m_retxSeqs`) contains an entry for that
sequence. -/
theorem c2_first_delay_reports_send_count :
    ((runEvents scenarioB_events scenarioB_state).2.countP (isSendOf 7) = 3) ∧
    ((runEvents scenarioB_events scenarioB_state).2.filter (isFirstDelayFor 7)
      = [Effect.traceFirstDelay 7 250 3 2]) ∧
    (seqTracked 7 (runEvents scenarioB_events scenarioB_state).1 = false) := by
  decide

/-- C3: for every sequence handed to the timeout handler, `OnTimeout`
first tells the estimator to back off (`IncreaseMultiplier` is the
first external call); then, if the retransmit counter (read through
`operator[]`, defaulting to 0) is strictly below the retry budget, it
marks the next send as non-representative (`SentSeq` with weight 1),
inserts the sequence into the retransmission set and triggers a
scheduling tick — leaving the three delay/timeout ledgers untouched;
otherwise it erases the sequence from the retransmit-counter,
first-send, last-send and timeout ledgers and tells the estimator to
discard its history (`DiscardInterestBySeq`), with no scheduling tick
and no retry. -/
theorem c3_onTimeout_spec (st : ConsumerState) (s : Nat) :
    ((OnTimeout s st).2.head? = some Effect.rttIncreaseMultiplier) ∧
    (if (mapIndexGet st.m_seqRetxCounts s).1 < st.m_retxNum then
        (OnTimeout s st).2 =
          [Effect.rttIncreaseMultiplier, Effect.rttSentSeq s 1, Effect.scheduleNext] ∧
        s ∈ (OnTimeout s st).1.m_retxSeqs ∧
        (OnTimeout s st).1.m_seqTimeouts = st.m_seqTimeouts ∧
        (OnTimeout s st).1.m_seqFullDelay = st.m_seqFullDelay ∧
        (OnTimeout s st).1.m_seqLastDelay = st.m_seqLastDelay
      else
        (OnTimeout s st).2 =
          [Effect.rttIncreaseMultiplier, Effect.rttDiscardInterestBySeq s] ∧
        s ∉ keysM (OnTimeout s st).1.m_seqRetxCounts ∧
        s ∉ keysST (OnTimeout s st).1.m_seqFullDelay ∧
        s ∉ keysST (OnTimeout s st).1.m_seqLastDelay ∧
        s ∉ keysST (OnTimeout s st).1.m_seqTimeouts ∧
        (OnTimeout s st).1.m_retxSeqs = st.m_retxSeqs) := by
  by_cases hbr : (mapIndexGet st.m_seqRetxCounts s).1 < st.m_retxNum
  · rw [if_pos hbr]
    simp only [OnTimeout, if_pos hbr]
    refine ⟨by trivial, by trivial, ?_, by trivial, by trivial, by trivial⟩
    exact mem_setInsert.mpr (Or.inr rfl)
  · rw [if_neg hbr]
    simp only [OnTimeout, if_neg hbr]
    refine ⟨by trivial, by trivial, ?_, ?_, ?_, ?_, by trivial⟩
    · intro hk
      exact (mem_keysM_mapErase.mp hk).2 rfl
    · intro hk
      exact (mem_keysST_stErase.mp hk).2 rfl
    · intro hk
      exact (mem_keysST_stErase.mp hk).2 rfl
    · intro hk
      exact (mem_keysST_stErase.mp hk).2 rfl

theorem onTimeout_retxTimer (q : Nat) (st : ConsumerState) :
    (OnTimeout q st).1.m_retxTimer = st.m_retxTimer := by
  simp only [OnTimeout]
  split <;> rfl

theorem checkLoop_retxTimer (fuel now rto : Nat) :
    ∀ st : ConsumerState, (checkLoop fuel now rto st).1.m_retxTimer = st.m_retxTimer := by
  induction fuel with
  | zero => intro st; rfl
  | succ fuel ih =>
    intro st
    cases he : st.m_seqTimeouts with
    | nil => rw [checkLoop_succ_nil fuel now rto st he]
    | cons entry rest =>
      rw [checkLoop_succ_cons fuel now rto st entry rest he]
      split
      · rw [ih, onTimeout_retxTimer]
      · rfl

/-- C4: a timeout scan over a time-ordered ledger whose entries have
send times `t1 ≤ … ≤ tn`, run at time `T` with the estimator threshold
`θ` (the code tests `ti + θ ≤ T`, the integer form of `T − ti ≥ θ`),
removes and hands to the timeout handler exactly the prefix of expired
entries (the handled sequences are read off the per-sequence estimator
calls that `OnTimeout` makes), stops at the first entry still within
the threshold leaving the whole suffix untouched — every remaining
entry is unexpired — and unconditionally ends by rescheduling the next
periodic check after the configured `m_retxTimer` interval. -/
theorem c4_timeout_scan (st : ConsumerState) (now rto : Nat)
    (hsort : st.m_seqTimeouts.Pairwise (fun a b => a.time ≤ b.time))
    (hnd : (keysST st.m_seqTimeouts).Nodup) :
    ((CheckRetxTimeout now rto st).1.m_seqTimeouts
      = st.m_seqTimeouts.dropWhile (fun e => decide (e.time + rto ≤ now))) ∧
    (handledSeqs (CheckRetxTimeout now rto st).2
      = (st.m_seqTimeouts.takeWhile (fun e => decide (e.time + rto ≤ now))).map
          SeqTimeout.seq) ∧
    (∀ e ∈ (CheckRetxTimeout now rto st).1.m_seqTimeouts, ¬ (e.time + rto ≤ now)) ∧
    ((CheckRetxTimeout now rto st).2.getLast?
      = some (Effect.scheduleRetxCheck st.m_retxTimer)) := by
  obtain ⟨h1, h2⟩ := checkLoop_scan now rto st.m_seqTimeouts st rfl hnd
  refine ⟨?_, ?_, ?_, ?_⟩
  · simp only [CheckRetxTimeout]
    exact h1
  · simp only [CheckRetxTimeout, handledSeqs, List.filterMap_append]
    simp only [handledSeqs] at h2
    rw [h2]
    simp
  · simp only [CheckRetxTimeout]
    rw [h1]
    exact fun e he => dropWhile_none_expired hsort e he
  · simp only [CheckRetxTimeout]
    rw [List.getLast?_concat, checkLoop_retxTimer]

/-- Concrete instance used by the C4 witness: three pending entries
with times 0, 10, 100; at `now = 60` with threshold 5 the first two
expire (their counters are at the budget, so they discard) and entry
`⟨3, 100⟩` survives. -/
def scanState : ConsumerState :=
  { m_active := true, m_seq := 10, m_seqMax := UINT32_MAX, m_retxNum := 3,
    m_retxTimer := 50,
    m_seqTimeouts := [⟨1, 0⟩, ⟨2, 10⟩, ⟨3, 100⟩],
    m_seqFullDelay := [⟨1, 0⟩, ⟨2, 10⟩, ⟨3, 100⟩],
    m_seqLastDelay := [⟨1, 0⟩, ⟨2, 10⟩, ⟨3, 100⟩],
    m_seqRetxCounts := [(1, 3), (2, 3), (3, 3)],
    m_retxSeqs := [] }

/-- Witness for C4, instantiating the scan theorem at `scanState`. -/
theorem c4_witness :
    (CheckRetxTimeout 60 5 scanState).1.m_seqTimeouts = [⟨3, 100⟩] ∧
    handledSeqs (CheckRetxTimeout 60 5 scanState).2 = [1, 2] ∧
    (CheckRetxTimeout 60 5 scanState).2.getLast?
      = some (Effect.scheduleRetxCheck 50) := by
  have h := c4_timeout_scan scanState 60 5 (by decide) (by decide)
  exact ⟨h.1.trans (by decide), (h.2.1).trans (by decide), h.2.2.2⟩

/-- State exhibiting the C5 counterexample: the retransmission set
holds exactly the value `UINT32_MAX` (reachable only after a sequence
with that number was sent and timed out), consumer active, fresh
counter at 0 with limit 5. -/
def sentinelRetxState : ConsumerState :=
  { m_active := true, m_seq := 0, m_seqMax := 5, m_retxNum := 3, m_retxTimer := 50,
    m_seqTimeouts := [], m_seqFullDelay := [], m_seqLastDelay := [],
    m_seqRetxCounts := [], m_retxSeqs := [UINT32_MAX] }

/-- C5 counterexample: the retransmission set is non-empty (it holds
the pending sequence `UINT32_MAX`), yet `SendPacket` does not resend
that sequence: the popped value collides with the in-band "invalid"
sentinel of `SendPacket` (ndn-consumer.cpp:173,187), so the code falls
through to fresh minting and transmits sequence 0 instead. -/
theorem c5_counterexample :
    sentinelRetxState.m_retxSeqs = [UINT32_MAX] ∧
    ((SendPacket 0 sentinelRetxState).2.countP (isSendOf UINT32_MAX) = 0) ∧
    ((SendPacket 0 sentinelRetxState).2.countP (isSendOf 0) = 1) ∧
    (SendPacket 0 sentinelRetxState).1.m_seq = 1 := by
  decide

/-- C5 (amended): on every scheduling tick, `SendPacket` performs no
transmission and no state change when the consumer is inactive;
otherwise, if the retransmission set is non-empty it removes its first
element — the numerically smallest pending sequence — and resends that
sequence provided it is not the reserved sentinel value `2^32 − 1`
(a popped sentinel is dropped and treated as "nothing pending", so any
transmission of the tick is a fresh mint); otherwise, if a maximum
sequence limit is configured (not the no-limit sentinel) and the next
counter value would reach or exceed it, nothing is sent; otherwise the
current counter value is minted as a fresh sequence and the counter
incremented. -/
theorem c5_send_policy (st : ConsumerState) (now : Nat)
    (hs : st.m_retxSeqs.Pairwise (· < ·)) :
    (st.m_active = false → SendPacket now st = (st, [])) ∧
    (∀ s rest, st.m_active = true → st.m_retxSeqs = s :: rest → s ≠ UINT32_MAX →
      (∀ x ∈ rest, s < x) ∧
      (SendPacket now st).1.m_retxSeqs = rest ∧
      Effect.sendInterest s ∈ (SendPacket now st).2 ∧
      (SendPacket now st).1.m_seq = st.m_seq) ∧
    (∀ s rest, st.m_active = true → st.m_retxSeqs = s :: rest → s = UINT32_MAX →
      (SendPacket now st).1.m_retxSeqs = rest ∧
      (∀ q, Effect.sendInterest q ∈ (SendPacket now st).2 → q = st.m_seq)) ∧
    (st.m_active = true → st.m_retxSeqs = [] →
      st.m_seqMax ≠ UINT32_MAX → st.m_seq ≥ st.m_seqMax →
      SendPacket now st = (st, [])) ∧
    (st.m_active = true → st.m_retxSeqs = [] →
      (st.m_seqMax = UINT32_MAX ∨ st.m_seq < st.m_seqMax) →
      Effect.sendInterest st.m_seq ∈ (SendPacket now st).2 ∧
      (SendPacket now st).1.m_seq = st.m_seq + 1) := by
  refine ⟨?_, ?_, ?_, ?_, ?_⟩
  · intro ha
    simp only [SendPacket, if_pos ha]
  · intro s rest ha hrs hne
    have hna : ¬ (st.m_active = false) := by simp [ha]
    have hsorted := hs
    rw [hrs, List.pairwise_cons] at hsorted
    simp only [SendPacket, if_neg hna, hrs, if_neg hne]
    exact ⟨hsorted.1, rfl, by simp [WaitBeforeSendOutInterest], rfl⟩
  · intro s rest ha hrs hsent
    subst hsent
    have hna : ¬ (st.m_active = false) := by simp [ha]
    simp only [SendPacket, if_neg hna, hrs, if_true]
    split
    · exact ⟨rfl, by simp⟩
    · refine ⟨rfl, ?_⟩
      intro q hq
      simp [WaitBeforeSendOutInterest] at hq
      exact hq
  · intro ha hrs hmax hge
    have hna : ¬ (st.m_active = false) := by simp [ha]
    simp only [SendPacket, if_neg hna, hrs, if_true, if_pos (And.intro hmax hge)]
    rw [← hrs]
  · intro ha hrs hok
    have hna : ¬ (st.m_active = false) := by simp [ha]
    have hlim : ¬ (st.m_seqMax ≠ UINT32_MAX ∧ st.m_seq ≥ st.m_seqMax) := by
      rcases hok with hok | hok
      · intro hc
        exact hc.1 hok
      · intro hc
        omega
    simp only [SendPacket, if_neg hna, hrs, if_true, if_neg hlim]
    exact ⟨by simp [WaitBeforeSendOutInterest], rfl⟩

/-- Concrete state for the C5 witness: two pending retransmissions 4
and 9. -/
def pendingRetxState : ConsumerState :=
  { m_active := true, m_seq := 10, m_seqMax := UINT32_MAX, m_retxNum := 3,
    m_retxTimer := 50, m_seqTimeouts := [], m_seqFullDelay := [⟨4, 0⟩, ⟨9, 1⟩],
    m_seqLastDelay := [⟨4, 0⟩, ⟨9, 1⟩], m_seqRetxCounts := [(4, 1), (9, 1)],
    m_retxSeqs := [4, 9] }

/-- Witness for C5, instantiating the send policy at `pendingRetxState`:
the smallest pending sequence 4 is popped and resent. -/
theorem c5_witness :
    (∀ x ∈ [9], 4 < x) ∧
    (SendPacket 0 pendingRetxState).1.m_retxSeqs = [9] ∧
    Effect.sendInterest 4 ∈ (SendPacket 0 pendingRetxState).2 ∧
    (SendPacket 0 pendingRetxState).1.m_seq = pendingRetxState.m_seq :=
  (c5_send_policy pendingRetxState 0 (by decide)).2.1 4 [9] rfl rfl (by decide)

/-- C6: when a Data response arrives for a sequence number present in
none of the five ledgers (already resolved or never issued), the
response handler mutates no consumer state and emits neither the
last-send nor the first-send delay metric: its only external call is
the unconditional `AckSeq` to the estimator (and even that is skipped
when the consumer is inactive). -/
theorem c6_stale_response (st : ConsumerState) (seq now hop : Nat)
    (h1 : seq ∉ keysST st.m_seqLastDelay) (h2 : seq ∉ keysST st.m_seqFullDelay)
    (h3 : seq ∉ keysM st.m_seqRetxCounts) (h4 : seq ∉ keysST st.m_seqTimeouts)
    (h5 : seq ∉ st.m_retxSeqs) :
    (OnData seq now hop st).1 = st ∧
    ((OnData seq now hop st).2
      = if st.m_active = true then [Effect.rttAckSeq seq] else []) := by
  by_cases ha : st.m_active = false
  · have hb : st.m_active = true → False := by
      intro h
      rw [h] at ha
      exact Bool.noConfusion ha
    simp only [OnData, if_pos ha]
    constructor
    · trivial
    · split
      · rename_i hx
        exact absurd hx hb
      · rfl
  · have hact : st.m_active = true := by revert ha; cases st.m_active <;> simp
    simp only [OnData, if_neg ha, stFind_eq_none h1, stFind_eq_none h2]
    refine ⟨?_, by rw [if_pos hact]; simp⟩
    simp only [resolutionErase, mapErase_of_not_mem h3, stErase_of_not_mem h4,
      setErase_of_not_mem h5, stErase_of_not_mem h2, stErase_of_not_mem h1]

/-- Witness for C6 at a concrete state with empty ledgers. -/
theorem c6_witness :
    (OnData 2 10 0 (initState 0 5 3 50 true)).1 = initState 0 5 3 50 true ∧
    ((OnData 2 10 0 (initState 0 5 3 50 true)).2
      = if (initState 0 5 3 50 true).m_active = true then [Effect.rttAckSeq 2] else []) :=
  c6_stale_response (initState 0 5 3 50 true) 2 10 0 (by decide) (by decide)
    (by decide) (by decide) (by decide)

/-- C7: the resolution-erase block of `OnData`
(ndn-consumer.cpp:289-294) is idempotent — applying it twice to any
state yields the same state as applying it once — and erasing a
sequence that is absent from every ledger is a no-op (the total
function `resolutionErase` raises nothing). -/
theorem c7_idempotent_erase (st : ConsumerState) (seq : Nat) :
    resolutionErase seq (resolutionErase seq st) = resolutionErase seq st ∧
    (¬ seqPresent seq st → resolutionErase seq st = st) := by
  constructor
  · have h1 : seq ∉ keysM (resolutionErase seq st).m_seqRetxCounts := fun hk =>
      (mem_keysM_mapErase.mp hk).2 rfl
    have h2 : seq ∉ keysST (resolutionErase seq st).m_seqTimeouts := fun hk =>
      (mem_keysST_stErase.mp hk).2 rfl
    have h3 : seq ∉ (resolutionErase seq st).m_retxSeqs := fun hk =>
      (mem_setErase.mp hk).2 rfl
    have h4 : seq ∉ keysST (resolutionErase seq st).m_seqFullDelay := fun hk =>
      (mem_keysST_stErase.mp hk).2 rfl
    have h5 : seq ∉ keysST (resolutionErase seq st).m_seqLastDelay := fun hk =>
      (mem_keysST_stErase.mp hk).2 rfl
    conv_lhs => rw [resolutionErase]
    simp only [mapErase_of_not_mem h1, stErase_of_not_mem h2, setErase_of_not_mem h3,
      stErase_of_not_mem h4, stErase_of_not_mem h5]
  · intro habs
    have h1 : seq ∉ keysM st.m_seqRetxCounts := fun hk => habs (Or.inl hk)
    have h4 : seq ∉ keysST st.m_seqFullDelay := fun hk => habs (Or.inr (Or.inl hk))
    have h5 : seq ∉ keysST st.m_seqLastDelay := fun hk =>
      habs (Or.inr (Or.inr (Or.inl hk)))
    have h2 : seq ∉ keysST st.m_seqTimeouts := fun hk =>
      habs (Or.inr (Or.inr (Or.inr (Or.inl hk))))
    have h3 : seq ∉ st.m_retxSeqs := fun hk =>
      habs (Or.inr (Or.inr (Or.inr (Or.inr hk))))
    simp only [resolutionErase, mapErase_of_not_mem h1, stErase_of_not_mem h2,
      setErase_of_not_mem h3, stErase_of_not_mem h4, stErase_of_not_mem h5]

/-- Witness for C7 at a concrete state. -/
theorem c7_witness :
    (resolutionErase 3 (resolutionErase 3 (initState 0 9 3 50 true))
      = resolutionErase 3 (initState 0 9 3 50 true)) ∧
    (¬ seqPresent 3 (initState 0 9 3 50 true) →
      resolutionErase 3 (initState 0 9 3 50 true) = initState 0 9 3 50 true) :=
  c7_idempotent_erase (initState 0 9 3 50 true) 3

/-- C8: in every execution of the event step relation — scheduled
sends, periodic timeout checks with arbitrary estimator thresholds, and
Data arrivals, dispatched in any order from a freshly configured
consumer — each sequence number is resolved at most once: the number of
acknowledgment events (an `OnData` dispatch that emits a delay metric
for the sequence) plus discard events (the budget-exhausted purge in
`OnTimeout`, observable as `DiscardInterestBySeq`) is at most 1 over
the whole execution. -/
theorem c8_exactly_once (startSeq seqMax retxNum retxTimer : Nat) (active : Bool)
    (evs : List Event) (seq : Nat) :
    resCount seq evs (initState startSeq seqMax retxNum retxTimer active) ≤ 1 :=
  resCount_le_one_aux (wf_initState startSeq seqMax retxNum retxTimer active)

/-- Configuration of scenario C: fresh consumer with `StartSeq = 0` and
`m_seqMax = 5`. -/
def scenarioC_state : ConsumerState := initState 0 5 3 50 true

/-- Event schedule of scenario C: ten scheduling ticks and no timeouts
or losses, so no retransmission ever occurs. -/
def scenarioC_events : List Event := List.replicate 10 (Event.send 0)

/-- C9: in any execution from the scenario C configuration
(`maxSequence = 5`, starting from 0) in which no retransmission occurs
(no `SentSeq` retry mark is ever sent to the estimator — the
observable shadow of an empty retransmission set), the transmitted
sequence numbers are strictly increasing, each is issued exactly once,
and every one is strictly below the limit 5; moreover, with enough
scheduling ticks, exactly the sequences 0,1,2,3,4 are minted and
sequence 5 never is. -/
theorem c9_monotone_minting (evs : List Event)
    (hnr : (runEvents evs scenarioC_state).2.countP isRetxMark = 0) :
    List.Chain' (· < ·) (sentSeqs (runEvents evs scenarioC_state).2) ∧
    (sentSeqs (runEvents evs scenarioC_state).2).Nodup ∧
    (∀ q ∈ sentSeqs (runEvents evs scenarioC_state).2, q < 5) ∧
    sentSeqs (runEvents scenarioC_events scenarioC_state).2 = [0, 1, 2, 3, 4] := by
  obtain ⟨ha, hb, _, _, _⟩ := noRetx_run evs scenarioC_state rfl hnr
  refine ⟨ha, ?_, ?_, by decide⟩
  · exact (List.chain'_iff_pairwise.mp ha).imp Nat.ne_of_lt
  · intro q hq
    have hqlt := (hb q hq).2.2 (by decide)
    simpa [scenarioC_state, initState] using hqlt

/-- Witness for C9 at the one-tick execution. -/
theorem c9_witness :
    List.Chain' (· < ·) (sentSeqs (runEvents [Event.send 0] scenarioC_state).2) ∧
    (sentSeqs (runEvents [Event.send 0] scenarioC_state).2).Nodup ∧
    (∀ q ∈ sentSeqs (runEvents [Event.send 0] scenarioC_state).2, q < 5) ∧
    sentSeqs (runEvents scenarioC_events scenarioC_state).2 = [0, 1, 2, 3, 4] :=
  c9_monotone_minting [Event.send 0] (by decide)

/-- C10: the cross-ledger invariant `Wf` — the key sets of
`m_seqRetxCounts`, `m_seqFullDelay` and `m_seqLastDelay` coincide
(fields `countsFull`, `countsLast`), the key set of `m_seqTimeouts` is
a subset of that common set (`timeoutsSub`), and a sequence waiting in
the retransmission set has no timeout-ledger entry
(`retxTimeoutsDisj`), together with the representation invariants the
C++ containers enforce and the lifecycle bound of spec §3 — is
preserved by each event handler: the send path (`SendPacket`, whose
bookkeeping is `WaitBeforeSendOutInterest`), the response handler
(`OnData`) and the timeout scan (`CheckRetxTimeout`, which feeds
`OnTimeout`); in particular, in a well-formed state no pending
retransmission can time out again before being resent. -/
theorem c10_ledger_invariant (st : ConsumerState) (h : Wf st) :
    (∀ now, Wf (SendPacket now st).1) ∧
    (∀ seq now hop, Wf (OnData seq now hop st).1) ∧
    (∀ now rto, Wf (CheckRetxTimeout now rto st).1) ∧
    (∀ k ∈ st.m_retxSeqs, k ∉ keysST st.m_seqTimeouts) :=
  ⟨fun _ => wf_SendPacket h, fun _ _ _ => wf_OnData h,
    fun _ _ => wf_CheckRetxTimeout h, h.retxTimeoutsDisj⟩

/-- Witness for C10 at the freshly configured consumer state. -/
theorem c10_witness :
    (∀ now, Wf (SendPacket now (initState 0 5 3 50 true)).1) ∧
    (∀ seq now hop, Wf (OnData seq now hop (initState 0 5 3 50 true)).1) ∧
    (∀ now rto, Wf (CheckRetxTimeout now rto (initState 0 5 3 50 true)).1) ∧
    (∀ k ∈ (initState 0 5 3 50 true).m_retxSeqs,
      k ∉ keysST (initState 0 5 3 50 true).m_seqTimeouts) :=
  c10_ledger_invariant (initState 0 5 3 50 true) (wf_initState 0 5 3 50 true)

end NdnConsumer
